import Mathlib

set_option maxRecDepth 8000

/-!
Verification development for the traversal-and-extraction engine of the
code-context-provider-mcp repository (src/index.js).

The source program walks a directory tree, compiles .gitignore-style glob
lines into regexes, classifies files for analysis, and reduces parsed
syntax trees (produced by an external tree-sitter parser) into per-file
symbol tables, rendering a textual tree report.

The shallow embedding below models, faithfully to src/index.js:
  - the tree-sitter node interface actually used by the extractor
    (type tag, text, span, named-field lookup, descendants-of-type,
    parent/ancestor access, named children);
  - the symbol extractor for the JavaScript and Python grammar families
    (extractCodeSymbols, lines 113-604);
  - the gitignore pattern compiler (parseGitignore, lines 607-654) and
    matcher (shouldIgnore, lines 657-677), including a small backtracking
    interpreter for the regex dialect those compiled patterns use
    (JavaScript RegExp.test semantics restricted to the constructs the
    compiler emits: literals, escapes, character classes, the star
    quantifier on single-character atoms, groups with alternation, and
    the ^ / $ anchors);
  - the file classifier (isSupportedFile, lines 680-704);
  - the recursive walker and renderer (getDirectoryTree, lines 716-902),
    with the filesystem supplied as a pure value and the external parse
    step supplied per file as an optional tree.

External effects out of scope of the source's core (actual disk I/O, the
parser's internals, WASM loading) are represented as explicit inputs.
-/

/-! ## String helpers (JavaScript string operations used by the source) -/

/-- Is `needle` a (contiguous) leading run of `hay`? -/
def charsPrefixOf : List Char → List Char → Bool
  | [], _ => true
  | _ :: _, [] => false
  | a :: as, b :: bs => a == b && charsPrefixOf as bs

/-- Does `needle` occur contiguously anywhere in `hay`? -/
def charsContains (hay needle : List Char) : Bool :=
  match hay with
  | [] => needle.isEmpty
  | _ :: t => charsPrefixOf needle hay || charsContains t needle

/-- JavaScript `String.prototype.includes` on our strings. -/
def strIncludes (s sub : String) : Bool :=
  charsContains s.data sub.data

/-- JavaScript `String.prototype.toLowerCase` (ASCII-relevant part). -/
def strToLower (s : String) : String :=
  String.mk (s.data.map Char.toLower)

/-- JavaScript `String.prototype.startsWith` (structurally computable). -/
def strStartsWith (s pat : String) : Bool :=
  charsPrefixOf pat.data s.data

/-- JavaScript `String.prototype.endsWith` (structurally computable). -/
def strEndsWith (s pat : String) : Bool :=
  charsPrefixOf pat.data.reverse s.data.reverse

/-- JavaScript `String.prototype.trim` (structurally computable). -/
def jsTrim (s : String) : String :=
  String.mk (((s.data.dropWhile Char.isWhitespace).reverse.dropWhile
    Char.isWhitespace).reverse)

def splitOnCharAux (sep : Char) : List Char → List Char → List String
  | [], acc => [String.mk acc.reverse]
  | h :: t, acc =>
    if h = sep then String.mk acc.reverse :: splitOnCharAux sep t []
    else splitOnCharAux sep t (h :: acc)

/-- Split a string at every occurrence of the separator character
(`String.prototype.split` with a one-character separator). -/
def strSplitOnChar (sep : Char) (s : String) : List String :=
  splitOnCharAux sep s.data []

def strReplaceAux (pat rep : List Char) : Nat → List Char → List Char
  | 0, s => s
  | _ + 1, [] => []
  | fuel + 1, h :: t =>
    if charsPrefixOf pat (h :: t) then
      rep ++ strReplaceAux pat rep fuel ((h :: t).drop pat.length)
    else h :: strReplaceAux pat rep fuel t

/-- Global, left-to-right, non-overlapping replacement of a non-empty
literal pattern: JavaScript `s.replace(/pat/g, rep)` for the literal
patterns the source uses. -/
def strReplace (s pat rep : String) : String :=
  if pat.data.isEmpty then s
  else String.mk (strReplaceAux pat.data rep.data s.data.length s.data)

/-- Remove every single-quote and double-quote character: the source's
`text.replace(/['"]/g, '')`. -/
def stripQuotes (s : String) : String :=
  String.mk (s.data.filter (fun c => c ≠ Char.ofNat 39 ∧ c ≠ '"'))

/-- Strip all trailing `/` characters: the source's
`pattern.replace(/\/+$/, '')`. -/
def stripTrailingSlashes (s : String) : String :=
  String.mk ((s.data.reverse.dropWhile (· = '/')).reverse)

/-! ## The tree-sitter node interface (spec section 6, "External parser")

A node exposes a type tag, named/anonymous status, raw source text, a
start/end row-column span, children, and named-field lookup. Field lookup
is represented as an association from field name to an index into the
children list, so a field's node is literally one of the children.
The `nid` component gives each node of a concrete tree an identity,
standing in for tree-sitter's node identity (used by `nextNamedSibling`).
-/

structure NodeData where
  type : String
  isNamed : Bool
  nid : Nat
  text : String
  startRow : Nat
  startCol : Nat
  endRow : Nat
  endCol : Nat
deriving Repr, DecidableEq

mutual
inductive Node where
  | mk (data : NodeData) (fields : List (String × Nat)) (children : NodeList)
inductive NodeList where
  | nil
  | cons (hd : Node) (tl : NodeList)
end

def Node.data : Node → NodeData
  | .mk d _ _ => d

def Node.fieldsOf : Node → List (String × Nat)
  | .mk _ f _ => f

def Node.childrenOf : Node → NodeList
  | .mk _ _ c => c

def NodeList.toList : NodeList → List Node
  | .nil => []
  | .cons n ns => n :: ns.toList

/-- Node text (`node.text`). -/
def Node.text (n : Node) : String :=
  n.data.text

/-- Node type tag (`node.type`). -/
def Node.type (n : Node) : String :=
  n.data.type

/-- Named-field lookup (`node.childForFieldName(name)`); `none` models the
field being absent (JavaScript `null`). -/
def Node.childForFieldName (n : Node) (fname : String) : Option Node :=
  match n.fieldsOf.lookup fname with
  | some i => n.childrenOf.toList[i]?
  | none => none

/-- The named (non-anonymous) children of a node, in order. -/
def Node.namedChildren (n : Node) : List Node :=
  n.childrenOf.toList.filter (fun c => c.data.isNamed)

/-- The first named child (`node.firstNamedChild`). -/
def Node.firstNamedChild (n : Node) : Option Node :=
  n.namedChildren.head?

/-- The next named sibling of `n` among the children of `parent`
(`node.nextNamedSibling`), located through node identity. -/
def Node.nextNamedSiblingIn (parent n : Node) : Option Node :=
  let cs := parent.childrenOf.toList
  match cs.findIdx? (fun c => c.data.nid == n.data.nid) with
  | some i => (cs.drop (i + 1)).find? (fun c => c.data.isNamed)
  | none => none

mutual
/-- Pre-order listing of the subtree rooted at a node, each node paired
with its ancestor chain (innermost ancestor, i.e. `node.parent`, first).
`anc` is the ancestor chain of the root argument itself. -/
def descAux (anc : List Node) : Node → List (Node × List Node)
  | .mk d f cs => (.mk d f cs, anc) :: descListAux (Node.mk d f cs :: anc) cs
def descListAux (anc : List Node) : NodeList → List (Node × List Node)
  | .nil => []
  | .cons n ns => descAux anc n ++ descListAux anc ns
end

/-- All nodes of the subtree of `n`, with ancestor chains relative to `n`. -/
def Node.descendantsWithAnc (n : Node) : List (Node × List Node) :=
  descAux [] n

/-- The source's `node.descendantsOfType(types)`, keeping each node's
ancestor chain so that the extractor's `node.parent` accesses can be
modelled; results are in pre-order (document order), as tree-sitter
returns them. -/
def Node.descendantsOfTypeAnc (n : Node) (types : List String) : List (Node × List Node) :=
  n.descendantsWithAnc.filter (fun p => types.contains p.1.data.type)

/-- The source's `node.descendantsOfType(types)` without ancestor data. -/
def Node.descendantsOfType (n : Node) (types : List String) : List Node :=
  (n.descendantsOfTypeAnc types).map (fun p => p.1)

/-! ## Data model: positions and symbol records (spec section 3) -/

/-- Position record: 1-based lines, 0-based columns (src/index.js 138-145). -/
structure Position where
  startLine : Nat
  startCol : Nat
  endLine : Nat
  endCol : Nat
deriving Repr, DecidableEq

/-- The position helper `getPosition` (src/index.js lines 138-145). -/
def getPosition (n : Node) : Position :=
  { startLine := n.data.startRow + 1
    startCol := n.data.startCol
    endLine := n.data.endRow + 1
    endCol := n.data.endCol }

structure FunctionRecord where
  name : String
  parent : Option String
  position : Position
  code : String
deriving Repr, DecidableEq

structure VariableRecord where
  name : String
  kind : String
  position : Position
  code : String
deriving Repr, DecidableEq

structure MethodRecord where
  name : String
  position : Position
  isStatic : Bool
  code : String
deriving Repr, DecidableEq

structure ClassRecord where
  name : String
  position : Position
  methods : List MethodRecord
  code : String
deriving Repr, DecidableEq

/-- An import/export item `{name, alias}`; `aliasName` is the source's
`alias` (an optional local alias). -/
structure ImportItem where
  name : String
  aliasName : Option String
deriving Repr, DecidableEq

structure ImportRecord where
  source : String
  items : List ImportItem
  position : Position
  code : String
deriving Repr, DecidableEq

structure ExportRecord where
  source : Option String
  items : List ImportItem
  isDefault : Bool
  position : Position
  code : String
deriving Repr, DecidableEq

/-- The five per-file symbol lists (spec section 3, FileSymbolTable). -/
structure FileSymbolTable where
  functions : List FunctionRecord
  «variables» : List VariableRecord
  classes : List ClassRecord
  imports : List ImportRecord
  exports : List ExportRecord
deriving Repr, DecidableEq

/-! ## Symbol extractor helpers (src/index.js lines 148-216)

In the source these close over the parse; here the ancestor chain `anc`
of a node (innermost first) stands in for the `node.parent` /
`parent.parent` accesses.
-/

/-- The significance filter `isSignificantFunction` (lines 148-172).
Note the source compares the lower-cased call text against the literal
`".forEach("` (upper-case E), which therefore never matches; this is
reproduced verbatim. -/
def isSignificantFunction (node : Node) (anc : List Node) (name : String) : Bool :=
  if node.type == "arrow_function" && node.text.length < 15 then
    false
  else
    let callbackDrop :=
      match anc.head? with
      | some parent =>
        if (parent.type == "call_expression" || parent.type == "member_expression")
            && node.text.length < 50 then
          let callText := strToLower (parent.text.take 30)
          strIncludes callText ".map(" || strIncludes callText ".filter(" ||
          strIncludes callText ".forEach(" || strIncludes callText ".find(" ||
          strIncludes callText ".reduce("
        else false
      | none => false
    if callbackDrop then false
    else name != "anonymous" || node.text.length > 100

/-- Name inference for expression-form functions, `inferFunctionName`
(lines 175-216): bound variable name, object-literal key, assignment
target, `.then`-style property, else `"anonymous"`. -/
def inferFunctionName (node : Node) (anc : List Node) : String :=
  match anc.head? with
  | none => "anonymous"
  | some parent =>
    if parent.type == "variable_declarator" then
      match parent.childForFieldName "name" with
      | some nameNode => nameNode.text
      | none => "anonymous"
    else if parent.type == "pair"
        && ((anc.drop 1).head?.map Node.type == some "object") then
      match parent.childForFieldName "key" with
      | some keyNode => stripQuotes keyNode.text
      | none => "anonymous"
    else if parent.type == "assignment_expression" then
      match parent.childForFieldName "left" with
      | some leftNode =>
        if leftNode.type == "member_expression" then
          match leftNode.childForFieldName "property" with
          | some propertyNode => propertyNode.text
          | none => "anonymous"
        else leftNode.text
      | none => "anonymous"
    else if parent.type == "property_identifier"
        && ((anc.drop 1).head?.map Node.type == some "member_expression") then
      parent.text
    else "anonymous"

/-! ## The JavaScript-family extraction passes (src/index.js lines 219-433) -/

/-- The functions pass for JavaScript/TypeScript (lines 222-262): collect
function declarations, method definitions, arrow functions and function
expressions; name methods via the `name` field and attach the enclosing
class name when `node.parent.parent` is a named class declaration; infer
names for expression forms; keep only records passing the significance
filter. -/
def extractJsFunctions (rootNode : Node) : List FunctionRecord :=
  let functionNodes := rootNode.descendantsOfTypeAnc
    ["function_declaration", "method_definition", "arrow_function", "function"]
  functionNodes.filterMap (fun p =>
    let node := p.1
    let anc := p.2
    let nameParent : String × Option String :=
      if node.type == "function_declaration" then
        (match node.firstNamedChild with
         | some nameNode => nameNode.text
         | none => "anonymous", none)
      else if node.type == "method_definition" then
        let nm := match node.childForFieldName "name" with
          | some nameNode => nameNode.text
          | none => "anonymous"
        let parentFunction := match (anc.drop 1).head? with
          | some classNode =>
            if classNode.type == "class_declaration" then
              (classNode.childForFieldName "name").map Node.text
            else none
          | none => none
        (nm, parentFunction)
      else
        (inferFunctionName node anc, none)
    if isSignificantFunction node anc nameParent.1 then
      some { name := nameParent.1, parent := nameParent.2,
             position := getPosition node, code := node.text }
    else none)

/-- The variables pass for JavaScript/TypeScript (lines 264-283). The
`kind` defaults to `"var"` when the `kind` field is absent or empty
(JavaScript `... || 'var'`). -/
def extractJsVariables (rootNode : Node) : List VariableRecord :=
  let variableNodes := rootNode.descendantsOfType
    ["variable_declaration", "lexical_declaration"]
  variableNodes.flatMap (fun node =>
    (node.descendantsOfType ["variable_declarator"]).filterMap (fun declarator =>
      match declarator.childForFieldName "name" with
      | some nameNode =>
        some { name := nameNode.text
               kind := match node.childForFieldName "kind" with
                 | some k => if k.text == "" then "var" else k.text
                 | none => "var"
               position := getPosition declarator
               code := declarator.text }
      | none => none))

/-- The classes pass for JavaScript/TypeScript (lines 285-316). -/
def extractJsClasses (rootNode : Node) : List ClassRecord :=
  let classNodes := rootNode.descendantsOfType ["class_declaration"]
  classNodes.filterMap (fun node =>
    match node.childForFieldName "name" with
    | some nameNode =>
      let methods := (node.descendantsOfType ["method_definition"]).filterMap
        (fun methodNode =>
          match methodNode.childForFieldName "name" with
          | some methodNameNode =>
            some { name := methodNameNode.text
                   position := getPosition methodNode
                   isStatic := match methodNode.childForFieldName "static" with
                     | some s => s.text == "static"
                     | none => false
                   code := methodNode.text }
          | none => none)
      some { name := nameNode.text, position := getPosition node,
             methods := methods, code := node.text }
    | none => none)

/-- The imports pass for JavaScript/TypeScript (lines 318-370). -/
def extractJsImports (rootNode : Node) : List ImportRecord :=
  let importNodes := rootNode.descendantsOfType ["import_statement"]
  importNodes.filterMap (fun node =>
    match node.childForFieldName "source" with
    | some sourceNode =>
      let src := stripQuotes sourceNode.text
      let specifiers := node.descendantsOfType ["import_specifier", "namespace_import"]
      let specItems := specifiers.filterMap (fun specNode =>
        if specNode.type == "import_specifier" then
          match specNode.childForFieldName "name" with
          | some nameNode =>
            some { name := nameNode.text
                   aliasName := (specNode.childForFieldName "alias").map Node.text }
          | none => none
        else
          match specNode.childForFieldName "name" with
          | some nameNode => some { name := "*", aliasName := some nameNode.text }
          | none => none)
      let defaultItems :=
        match (node.descendantsOfType ["identifier"])[0]? with
        | some defaultImportNode =>
          if specifiers.isEmpty then
            [{ name := "default", aliasName := some defaultImportNode.text }]
          else []
        | none => []
      some { source := src, items := specItems ++ defaultItems,
             position := getPosition node, code := node.text }
    | none => none)

/-- The exports pass for JavaScript/TypeScript (lines 372-433): explicit
export statements, plus declarations that are direct children of an
export wrapper (re-deriving the declared name; a record is only pushed
when that name is non-empty, the JavaScript `if (name)`). -/
def extractJsExports (rootNode : Node) : List ExportRecord :=
  let exportNodes := rootNode.descendantsOfTypeAnc
    ["export_statement", "lexical_declaration", "function_declaration"]
  exportNodes.filterMap (fun p =>
    let node := p.1
    let anc := p.2
    if node.type == "export_statement" then
      let src := (node.childForFieldName "source").map (fun s => stripQuotes s.text)
      let exportedItems := (node.descendantsOfType ["export_specifier"]).filterMap
        (fun specNode =>
          match specNode.childForFieldName "name" with
          | some nameNode =>
            some { name := nameNode.text
                   aliasName := (specNode.childForFieldName "alias").map Node.text }
          | none => none)
      some { source := src, items := exportedItems,
             isDefault := match node.childForFieldName "default" with
               | some d => d.text == "default"
               | none => false
             position := getPosition node, code := node.text }
    else
      match anc.head? with
      | some parent =>
        if parent.type == "export_statement" then
          let nm :=
            if node.type == "function_declaration" then
              match node.childForFieldName "name" with
              | some nameNode => nameNode.text
              | none => ""
            else
              match (node.descendantsOfType ["variable_declarator"])[0]? with
              | some declarator =>
                match declarator.childForFieldName "name" with
                | some nameNode => nameNode.text
                | none => ""
              | none => ""
          if nm != "" then
            some { source := none, items := [{ name := nm, aliasName := none }],
                   isDefault := match parent.childForFieldName "default" with
                     | some d => d.text == "default"
                     | none => false
                   position := getPosition parent, code := parent.text }
          else none
        else none
      | none => none)

/-- The whole JavaScript-family reduction (the
`wasmFile === 'tree-sitter-javascript.wasm'` branch). -/
def extractJsSymbols (rootNode : Node) : FileSymbolTable :=
  { functions := extractJsFunctions rootNode
    «variables» := extractJsVariables rootNode
    classes := extractJsClasses rootNode
    imports := extractJsImports rootNode
    exports := extractJsExports rootNode }

/-! ## The Python extraction passes (src/index.js lines 434-591) -/

/-- The Python functions pass (lines 437-461): every `function_definition`
node yields a record, with no significance filtering; the enclosing class
name is attached when `node.parent.parent` is a class definition. -/
def extractPyFunctions (rootNode : Node) : List FunctionRecord :=
  let functionNodes := rootNode.descendantsOfTypeAnc ["function_definition"]
  functionNodes.map (fun p =>
    let node := p.1
    let anc := p.2
    let nm := match node.childForFieldName "name" with
      | some nameNode => nameNode.text
      | none => "anonymous"
    let parentFunction := match (anc.drop 1).head? with
      | some parent =>
        if parent.type == "class_definition" then
          (parent.childForFieldName "name").map Node.text
        else none
      | none => none
    { name := nm, parent := parentFunction,
      position := getPosition node, code := node.text })

/-- The Python variables pass (lines 463-480): only module-level or
class-body-level assignments to a plain identifier. -/
def extractPyVariables (rootNode : Node) : List VariableRecord :=
  let assignmentNodes := rootNode.descendantsOfTypeAnc ["assignment"]
  assignmentNodes.filterMap (fun p =>
    let node := p.1
    let anc := p.2
    let parentOk := match anc.head? with
      | some parent =>
        parent.type == "module" ||
        (parent.type == "block"
          && ((anc.drop 1).head?.map Node.type == some "class_definition"))
      | none => false
    if parentOk then
      match node.childForFieldName "left" with
      | some left =>
        if left.type == "identifier" then
          some { name := left.text, kind := "var",
                 position := getPosition node, code := node.text }
        else none
      | none => none
    else none)

/-- The Python classes pass (lines 482-526), including the source's
`@staticmethod` detection through a `decorator_list` field lookup. -/
def extractPyClasses (rootNode : Node) : List ClassRecord :=
  let classNodes := rootNode.descendantsOfType ["class_definition"]
  classNodes.filterMap (fun node =>
    match node.childForFieldName "name" with
    | some nameNode =>
      let methods := (node.descendantsOfType ["function_definition"]).filterMap
        (fun methodNode =>
          match methodNode.childForFieldName "name" with
          | some methodNameNode =>
            let isStatic := match methodNode.childForFieldName "decorator_list" with
              | some decorators =>
                decorators.childrenOf.toList.any (fun d => d.text == "@staticmethod")
              | none => false
            some { name := methodNameNode.text, position := getPosition methodNode,
                   isStatic := isStatic, code := methodNode.text }
          | none => none)
      some { name := nameNode.text, position := getPosition node,
             methods := methods, code := node.text }
    | none => none)

/-- The Python imports pass (lines 528-590). For a plain import statement
one record is emitted per dotted module name (with the next named sibling
as alias); for a from-import, one record carries the ordered item list
(an aliased item is pushed only when its name text is non-empty, the
JavaScript `if (name)`). -/
def extractPyImports (rootNode : Node) : List ImportRecord :=
  let importNodes := rootNode.descendantsOfTypeAnc
    ["import_statement", "import_from_statement"]
  importNodes.flatMap (fun p =>
    let node := p.1
    if node.type == "import_statement" then
      match node.childForFieldName "names" with
      | some namesNode =>
        let importedModules := (descAux [node] namesNode).filter
          (fun q => q.1.type == "dotted_name")
        importedModules.map (fun q =>
          let moduleNode := q.1
          let aliasNode := match q.2.head? with
            | some parent => Node.nextNamedSiblingIn parent moduleNode
            | none => none
          { source := moduleNode.text
            items := [{ name := "module", aliasName := aliasNode.map Node.text }]
            position := getPosition node, code := node.text })
      | none => []
    else
      match node.childForFieldName "module", node.childForFieldName "names" with
      | some moduleNode, some namesNode =>
        let importedItems := namesNode.namedChildren.filterMap (fun nameNode =>
          if nameNode.type == "aliased_import" then
            match nameNode.childForFieldName "name" with
            | some nn =>
              if nn.text != "" then
                some { name := nn.text
                       aliasName := (nameNode.childForFieldName "alias").map Node.text }
              else none
            | none => none
          else if nameNode.type == "identifier" then
            some { name := nameNode.text, aliasName := none }
          else none)
        [{ source := moduleNode.text, items := importedItems,
           position := getPosition node, code := node.text }]
      | _, _ => [])

/-- The whole Python reduction (`wasmFile === 'tree-sitter-python.wasm'`
branch); the exports list stays empty, as in the source. -/
def extractPySymbols (rootNode : Node) : FileSymbolTable :=
  { functions := extractPyFunctions rootNode
    «variables» := extractPyVariables rootNode
    classes := extractPyClasses rootNode
    imports := extractPyImports rootNode
    exports := [] }

/-! ## Language dispatch and extractCodeSymbols (lines 17-23, 106-124, 593-604) -/

/-- The `SUPPORTED_LANGUAGES` extension-to-grammar map (lines 17-23). -/
def SUPPORTED_LANGUAGES : List (String × String) :=
  [("js", "tree-sitter-javascript.wasm"),
   ("jsx", "tree-sitter-javascript.wasm"),
   ("ts", "tree-sitter-javascript.wasm"),
   ("tsx", "tree-sitter-javascript.wasm"),
   ("py", "tree-sitter-python.wasm")]

/-- Node.js `path.basename` (POSIX: the part after the last separator). -/
def pathBasename (p : String) : String :=
  match (strSplitOnChar '/' p).getLast? with
  | some b => b
  | none => p

/-- Index of the last `.` in a character list, if any. -/
def lastDotIdx (cs : List Char) : Option Nat :=
  ((cs.enum.filter (fun q => q.2 = '.')).getLast?).map (fun q => q.1)

/-- Node.js `path.extname`: the suffix of the basename from its last dot,
empty for dotless names and for names whose only dot is the leading one. -/
def pathExtname (p : String) : String :=
  let base := pathBasename p
  match lastDotIdx base.data with
  | some i => if i = 0 then "" else String.mk (base.data.drop i)
  | none => ""

/-- The source's `getLanguageFromExtension` (lines 106-110):
lower-cased dot-less extension looked up in `SUPPORTED_LANGUAGES`,
`none` modelling the JavaScript `null`. -/
def getLanguageFromExtension (filePath : String) : Option String :=
  let ext := strToLower ((pathExtname filePath).drop 1)
  SUPPORTED_LANGUAGES.lookup ext

/-- Split a group body at the closing parenthesis, cutting the top-level
alternation bars: given the pattern text after `(`, returns the list of
alternatives and the continuation after the matching `)`. -/
def rxGroupSplit : List Char → Nat → List Char → List (List Char) →
    Option (List (List Char) × List Char)
  | [], _, _, _ => none
  | c :: rest, depth, cur, acc =>
    if c = ')' then
      if depth = 0 then some (acc ++ [cur.reverse], rest)
      else rxGroupSplit rest (depth - 1) (c :: cur) acc
    else if c = '(' then rxGroupSplit rest (depth + 1) (c :: cur) acc
    else if c = '|' ∧ depth = 0 then rxGroupSplit rest 0 [] (acc ++ [cur.reverse])
    else rxGroupSplit rest depth (c :: cur) acc

def rxClassSplitAux : List Char → List Char → Option (List Char × List Char)
  | [], _ => none
  | ']' :: rest, acc => some (acc.reverse, rest)
  | c :: rest, acc => rxClassSplitAux rest (c :: acc)

/-- Split a character class at the closing bracket: given the pattern
text after `[`, returns the negation flag, the member characters, and
the continuation after `]`. -/
def rxClassSplit : List Char → Option (Bool × List Char × List Char)
  | '^' :: rest => (rxClassSplitAux rest []).map (fun q => (true, q.1, q.2))
  | cs => (rxClassSplitAux cs []).map (fun q => (false, q.1, q.2))


/-- Top-level per-file extractor `extractCodeSymbols` (lines 113-604).

The external parse step is out of scope (spec section 6): its outcome is
supplied as `parseResult`, where `none` models the parser throwing (the
source catches that error, logs it and returns `null`, never re-raising).
`loadedLanguages` models `languageInstances` (the set of successfully
loaded grammar modules). The source returns `null` exactly when the
extension maps to no grammar, the grammar is not loaded, or the
parse/extraction step throws; otherwise it returns the five lists. -/
def extractCodeSymbols (loadedLanguages : List String) (filePath : String)
    (parseResult : Option Node) : Option FileSymbolTable :=
  match getLanguageFromExtension filePath with
  | none => none
  | some wasmFile =>
    if loadedLanguages.contains wasmFile then
      match parseResult with
      | none => none
      | some rootNode =>
        if wasmFile == "tree-sitter-javascript.wasm" then
          some (extractJsSymbols rootNode)
        else if wasmFile == "tree-sitter-python.wasm" then
          some (extractPySymbols rootNode)
        else
          some { functions := [], «variables» := [], classes := [],
                 imports := [], exports := [] }
    else none

/-! ## A JavaScript RegExp interpreter for the compiled patterns

The source builds regex source strings (in `parseGitignore` and in the
glob branch of `isSupportedFile`) and runs them with
`new RegExp(pattern).test(str)`. `rxMatch` interprets such a pattern
directly over the pattern text, restricted to the dialect those
call-sites emit: literal characters, `\c` escapes, `.`, character
classes `[...]` / `[^...]` without ranges, the `*` quantifier on a
single-character atom, groups `(..|..)` with alternation, and the `^`
and `$` anchors. `rxMatch fuel pat s i` decides whether some prefix of
`s` starting at offset `i` matches the whole pattern; the fuel only
bounds the recursion and is chosen large enough in `rxTest` for every
search that terminates does so within it (each recursive call either
shortens the pattern or advances the offset). -/
def rxMatch : Nat → List Char → List Char → Nat → Bool
  | 0, _, _, _ => false
  | _ + 1, [], _, _ => true
  | f + 1, '(' :: rest, s, i =>
    match rxGroupSplit rest 0 [] [] with
    | some (alts, cont) => alts.any (fun a => rxMatch f (a ++ cont) s i)
    | none => false
  | f + 1, '^' :: rest, s, i => if i = 0 then rxMatch f rest s i else false
  | f + 1, '$' :: rest, s, i => if i = s.length then rxMatch f rest s i else false
  | f + 1, '\\' :: c :: '*' :: rest, s, i =>
    rxMatch f rest s i ||
    (match s[i]? with
     | some sc => sc == c && rxMatch f ('\\' :: c :: '*' :: rest) s (i + 1)
     | none => false)
  | f + 1, '\\' :: c :: rest, s, i =>
    (match s[i]? with
     | some sc => sc == c && rxMatch f rest s (i + 1)
     | none => false)
  | f + 1, '[' :: rest, s, i =>
    match rxClassSplit rest with
    | some (neg, body, after) =>
      match after with
      | '*' :: rest2 =>
        rxMatch f rest2 s i ||
        (match s[i]? with
         | some sc =>
           (if neg then !(body.contains sc) else body.contains sc) &&
           rxMatch f ('[' :: rest) s (i + 1)
         | none => false)
      | _ =>
        (match s[i]? with
         | some sc =>
           (if neg then !(body.contains sc) else body.contains sc) &&
           rxMatch f after s (i + 1)
         | none => false)
    | none => false
  | f + 1, '.' :: '*' :: rest, s, i =>
    rxMatch f rest s i ||
    (match s[i]? with
     | some sc => (sc != '\n' && sc != '\r') && rxMatch f ('.' :: '*' :: rest) s (i + 1)
     | none => false)
  | f + 1, '.' :: rest, s, i =>
    (match s[i]? with
     | some sc => (sc != '\n' && sc != '\r') && rxMatch f rest s (i + 1)
     | none => false)
  | f + 1, c :: '*' :: rest, s, i =>
    rxMatch f rest s i ||
    (match s[i]? with
     | some sc => sc == c && rxMatch f (c :: '*' :: rest) s (i + 1)
     | none => false)
  | f + 1, c :: rest, s, i =>
    (match s[i]? with
     | some sc => sc == c && rxMatch f rest s (i + 1)
     | none => false)

/-- A fuel bound ample for any terminating search: every `rxMatch` call
either strictly shortens the pattern or strictly advances the offset. -/
def rxFuel (pat s : String) : Nat :=
  (s.length + 2) * (pat.length + 2) + 1

/-- JavaScript `new RegExp(pattern).test(s)` for the emitted dialect:
an unanchored search over every start offset. -/
def rxTest (pat s : String) : Bool :=
  (List.range (s.length + 1)).any (fun i => rxMatch (rxFuel pat s) pat.data s.data i)

/-! ## The gitignore pattern compiler and matcher (src/index.js 607-677) -/

/-- Compilation of one (already trimmed, non-empty, non-comment) ignore
line into a regex source string (the body of the map in `parseGitignore`,
lines 618-649): `node_modules` is special-cased; trailing slashes are
stripped; a leading slash anchors the pattern to the root; dots are
escaped; `**`, `*` and `?` become `.*`, `[^/]*` and `[^/]`; slashes are
escaped. -/
def parseGitignoreLine (pattern : String) : String :=
  if pattern == "node_modules" || pattern == "node_modules/" then
    "^node_modules($|/)"
  else
    let processedPattern := stripTrailingSlashes pattern
    let hasLeadingSlash := strStartsWith processedPattern "/"
    let processedPattern :=
      if hasLeadingSlash then processedPattern.drop 1 else processedPattern
    let processedPattern :=
      strReplace (strReplace (strReplace (strReplace (strReplace (strReplace
        processedPattern "." "\\.") "**" "__DOUBLE_STAR__") "*" "[^/]*")
        "__DOUBLE_STAR__" ".*") "?" "[^/]") "/" "\\/"
    if hasLeadingSlash then "^" ++ processedPattern ++ "($|/.*)"
    else "(^|.*/|^/)" ++ processedPattern ++ "($|/.*)"

/-- The source's `parseGitignore` (lines 607-654), applied to the ignore
file's content (the file-read itself is the caller's concern): split into
lines, trim, drop blank and `#` comment lines, compile each line. -/
def parseGitignore (content : String) : List String :=
  ((((strSplitOnChar '\n' content).map jsTrim).filter
    (fun line => line != "" && !(strStartsWith line "#"))).map parseGitignoreLine)

/-- Node.js `path.relative(rootPath, itemPath)` for the uses this program
makes of it: `itemPath` is always `rootPath` itself or a path below it
built with `/` separators. -/
def pathRelative (rootPath itemPath : String) : String :=
  if itemPath == rootPath then ""
  else if strStartsWith itemPath (rootPath ++ "/") then
    itemPath.drop (rootPath.length + 1)
  else itemPath

/-- The source's `shouldIgnore` (lines 657-677). `isDirectory` carries the
`fs.statSync(itemPath).isDirectory()` answer. Each compiled pattern is
tested against the root-relative path (with a trailing slash appended for
directories) and against the bare item name; a match on either counts. -/
def shouldIgnore (itemPath : String) (ignorePatterns : List String)
    (rootPath : String) (isDirectory : Bool) : Bool :=
  if ignorePatterns.length = 0 then false
  else
    let relativePath := pathRelative rootPath itemPath
    let pathToCheck := if isDirectory then relativePath ++ "/" else relativePath
    let itemName := pathBasename itemPath
    ignorePatterns.any (fun pattern =>
      rxTest pattern pathToCheck || rxTest pattern itemName)

/-! ## The file classifier (src/index.js 680-704) -/

/-- The source's `isSupportedFile`: with a non-empty custom pattern list,
the basename is matched against each pattern (glob via regex when the
pattern has a `*`; suffix test when it starts with a dot; otherwise a
case-insensitive comparison of the pattern against the file's dot-less
extension); with no patterns, membership of the extension in
`SUPPORTED_LANGUAGES` decides. -/
def isSupportedFile (filePath : String) (customPatterns : Option (List String)) : Bool :=
  let defaultCheck :=
    (SUPPORTED_LANGUAGES.lookup (strToLower ((pathExtname filePath).drop 1))).isSome
  match customPatterns with
  | some patterns =>
    if patterns.length > 0 then
      let fileName := pathBasename filePath
      patterns.any (fun pattern =>
        if strIncludes pattern "*" then
          let regexPattern := strReplace (strReplace pattern "." "\\.") "*" ".*"
          rxTest ("^" ++ regexPattern ++ "$") fileName
        else if strStartsWith pattern "." then
          strEndsWith filePath pattern
        else
          strToLower ((pathExtname filePath).drop 1) == strToLower pattern)
    else defaultCheck
  | none => defaultCheck

/-! ## The filesystem model and the walker (src/index.js 716-902)

The walker is embedded over a pure filesystem value. A file carries its
listed size in bytes, its content (read only for `.gitignore` files) and
the outcome of the external parse step for that file (`none` when the
parser would throw); a directory carries its entries in the enumeration
order `fs.readdirSync` would produce. The walker returns the rendered
text together with the ordered list of (path, symbol table) analysis
results it would store into the global `codeSymbols` aggregate.
-/

mutual
inductive FSEntry where
  | file (name : String) (size : Nat) (content : String) (parse : Option Node)
  | dir (name : String) (entries : FSList)
inductive FSList where
  | nil
  | cons (e : FSEntry) (tl : FSList)
end

def FSEntry.name : FSEntry → String
  | .file n _ _ _ => n
  | .dir n _ => n

def FSEntry.isDir : FSEntry → Bool
  | .file _ _ _ _ => false
  | .dir _ _ => true

def FSList.toList : FSList → List FSEntry
  | .nil => []
  | .cons e tl => e :: tl.toList

/-- Content of this directory's `.gitignore` file, if present (the
`fs.existsSync(gitignorePath)` + `readFileSync` step, lines 743-747). -/
def findGitignore : FSList → Option String
  | .nil => none
  | .cons (.file n _ content _) tl =>
    if n == ".gitignore" then some content else findGitignore tl
  | .cons (.dir _ _) tl => findGitignore tl

/-- The fixed default ignore set (lines 723-737), verbatim. -/
def defaultIgnorePatterns : List String :=
  ["^node_modules($|/)",
   "^.git($|/)",
   "\\.log$",
   "\\.tmp$",
   "\\.temp$",
   "\\.swp$",
   "\\.DS_Store$",
   "\\.vscode($|/)",
   "\\.idea($|/)",
   "\\.vs($|/)",
   "^dist($|/)",
   "^build($|/)",
   "^coverage($|/)"]

/-- Ignore rules in force inside one directory (lines 740-747): the
default set, then the rules inherited from ancestors, then rules parsed
from this directory's own `.gitignore`. -/
def dirIgnorePatterns (entries : FSList) (inherited : List String) : List String :=
  let allIgnorePatterns := defaultIgnorePatterns ++ inherited
  match findGitignore entries with
  | some content => allIgnorePatterns ++ parseGitignore content
  | none => allIgnorePatterns

/-- The per-file "[Analyzed: ...]" summary line (line 818). -/
def renderSummaryLine (childIndent : String) (symbols : FileSymbolTable) : String :=
  childIndent ++ "└── [Analyzed: " ++ toString symbols.functions.length ++
    " functions, " ++ toString symbols.«variables».length ++ " variables, " ++
    toString symbols.classes.length ++ " classes]\n"

/-- One line of the detailed functions listing (lines 829-831). -/
def renderFunctionLine (childIndent : String) (fn : FunctionRecord) : String :=
  childIndent ++ "    - " ++ fn.name ++
    (match fn.parent with
     | some p => if p == "" then "" else " (in " ++ p ++ ")"
     | none => "") ++
    " [" ++ toString fn.position.startLine ++ ":" ++
    toString fn.position.startCol ++ "]"

/-- The detailed symbol listing appended when `includeSymbols` is set
(lines 821-888). The functions section always filters out records whose
name is literally `"anonymous"` before rendering. -/
def renderSymbolDetails (childIndent : String) (symbolType : String)
    (symbols : FileSymbolTable) : String :=
  let functionsPart :=
    if (symbolType == "functions" || symbolType == "all")
        && symbols.functions.length > 0 then
      let fileFunctions := symbols.functions.filter (fun fn => fn.name != "anonymous")
      if fileFunctions.length > 0 then
        childIndent ++ "    Functions:\n" ++
        String.intercalate "\n" (fileFunctions.map (renderFunctionLine childIndent))
          ++ "\n"
      else ""
    else ""
  let variablesPart :=
    if (symbolType == "variables" || symbolType == "all")
        && symbols.«variables».length > 0 then
      childIndent ++ "    Variables:\n" ++
      String.intercalate "\n" (symbols.«variables».map (fun v =>
        childIndent ++ "    - " ++ v.kind ++ " " ++ v.name ++ " [" ++
          toString v.position.startLine ++ ":" ++ toString v.position.startCol ++ "]"))
        ++ "\n"
    else ""
  let classesPart :=
    if (symbolType == "classes" || symbolType == "all")
        && symbols.classes.length > 0 then
      childIndent ++ "    Classes:\n" ++
      String.intercalate "\n" (symbols.classes.map (fun c =>
        let classInfo := childIndent ++ "    - " ++ c.name ++ " [" ++
          toString c.position.startLine ++ ":" ++ toString c.position.startCol ++ "]"
        if c.methods.length > 0 then
          classInfo ++ "\n" ++ childIndent ++ "      Methods:\n" ++
          String.intercalate "\n" (c.methods.map (fun m =>
            childIndent ++ "      - " ++ (if m.isStatic then "static " else "") ++
              m.name ++ " [" ++ toString m.position.startLine ++ ":" ++
              toString m.position.startCol ++ "]"))
        else classInfo)) ++ "\n"
    else ""
  let importsPart :=
    if (symbolType == "imports" || symbolType == "all")
        && symbols.imports.length > 0 then
      childIndent ++ "    Imports:\n" ++
      String.intercalate "\n" (symbols.imports.map (fun imp =>
        let importInfo := childIndent ++ "    - from \x27" ++ imp.source ++ "\x27"
        if imp.items.length > 0 then
          importInfo ++ ": " ++
          String.intercalate ", " (imp.items.map (fun item =>
            item.name ++ (match item.aliasName with
              | some a => if a == "" then "" else " as " ++ a
              | none => "")))
        else importInfo)) ++ "\n"
    else ""
  let exportsPart :=
    if (symbolType == "exports" || symbolType == "all")
        && symbols.exports.length > 0 then
      childIndent ++ "    Exports:\n" ++
      String.intercalate "\n" (symbols.exports.map (fun exp =>
        let exportInfo := childIndent ++ "    - " ++
          (if exp.isDefault then "default export" else "export")
        let exportInfo := exportInfo ++
          (match exp.source with
           | some s => if s == "" then "" else " from \x27" ++ s ++ "\x27"
           | none => "")
        if exp.items.length > 0 then
          exportInfo ++ ": " ++
          String.intercalate ", " (exp.items.map (fun item =>
            item.name ++ (match item.aliasName with
              | some a => if a == "" then "" else " as " ++ a
              | none => "")))
        else exportInfo)) ++ "\n"
    else ""
  functionsPart ++ variablesPart ++ classesPart ++ importsPart ++ exportsPart

mutual
/-- One iteration of the entry loop of `getDirectoryTree` (lines 752-895)
for the entry `e` of directory `dirPath`; `isLast` says whether `e` is
the last entry of the full enumeration (which decides the `└──`/`├──`
prefix and the child indent). Returns the rendered text and the analysis
results stored during this iteration, in order. -/
def walkEntry (e : FSEntry) (isLast : Bool) (dirPath rootPath : String)
    (allIgnorePatterns : List String) (filePatterns : Option (List String))
    (indent : String) (analyzeJs includeSymbols : Bool) (symbolType : String)
    (currentDepth maxDepth : Nat) (loadedLanguages : List String) :
    String × List (String × FileSymbolTable) :=
  let itemName := e.name
  if itemName == ".gitignore" then ("", [])
  else if strStartsWith itemName "." then ("", [])
  else
    let itemPath := dirPath ++ "/" ++ itemName
    if shouldIgnore itemPath allIgnorePatterns rootPath e.isDir then ("", [])
    else
      let pfx := if isLast then "└── " else "├── "
      let childIndent := indent ++ (if isLast then "    " else "│   ")
      match e with
      | .dir _ entries =>
        let header := indent ++ pfx ++ itemName ++ "/\n"
        let shouldAnalyze := analyzeJs && decide (currentDepth < maxDepth)
        let sub := walkList entries (dirIgnorePatterns entries allIgnorePatterns)
          itemPath rootPath filePatterns childIndent shouldAnalyze includeSymbols
          symbolType (currentDepth + 1) maxDepth loadedLanguages
        (header ++ sub.1, sub.2)
      | .file _ size _ parseResult =>
        let sizeInKB := (size + 1023) / 1024
        let line := indent ++ pfx ++ itemName ++ " (" ++ toString sizeInKB ++ " KB)\n"
        if analyzeJs && decide (currentDepth ≤ maxDepth)
            && isSupportedFile itemPath filePatterns then
          match extractCodeSymbols loadedLanguages itemPath parseResult with
          | some symbols =>
            let details := if includeSymbols then
                renderSymbolDetails childIndent symbolType symbols
              else ""
            (line ++ renderSummaryLine childIndent symbols ++ details,
             [(itemPath, symbols)])
          | none => (line, [])
        else (line, [])

/-- The entry loop of `getDirectoryTree` over the enumerated entries of
one directory, with `allIgnorePatterns` already merged for it. -/
def walkList (items : FSList) (allIgnorePatterns : List String)
    (dirPath rootPath : String) (filePatterns : Option (List String))
    (indent : String) (analyzeJs includeSymbols : Bool) (symbolType : String)
    (currentDepth maxDepth : Nat) (loadedLanguages : List String) :
    String × List (String × FileSymbolTable) :=
  match items with
  | .nil => ("", [])
  | .cons e rest =>
    let isLast := match rest with
      | .nil => true
      | .cons _ _ => false
    let this := walkEntry e isLast dirPath rootPath allIgnorePatterns filePatterns
      indent analyzeJs includeSymbols symbolType currentDepth maxDepth loadedLanguages
    let others := walkList rest allIgnorePatterns dirPath rootPath filePatterns
      indent analyzeJs includeSymbols symbolType currentDepth maxDepth loadedLanguages
    (this.1 ++ others.1, this.2 ++ others.2)
end

/-- The source's `getDirectoryTree` (lines 716-902) applied to the
entries of the directory at `dirPath`: merge the ignore rules in force
(defaults, inherited, this directory's own ignore file) and run the
entry loop. The rendered text is returned together with the ordered
(path, symbol table) pairs stored into `codeSymbols` during the walk. -/
def getDirectoryTree (entries : FSList) (dirPath rootPath : String)
    (ignorePatterns : List String) (filePatterns : Option (List String))
    (indent : String) (analyzeJs includeSymbols : Bool) (symbolType : String)
    (currentDepth maxDepth : Nat) (loadedLanguages : List String) :
    String × List (String × FileSymbolTable) :=
  walkList entries (dirIgnorePatterns entries ignorePatterns) dirPath rootPath
    filePatterns indent analyzeJs includeSymbols symbolType currentDepth maxDepth
    loadedLanguages

/-! ## Concrete parse trees for the specification scenarios

These values transcribe the trees the tree-sitter JavaScript / Python
grammars produce for the small sources the spec discusses, with exact
row/column spans and node texts.
-/

def NodeList.ofList : List Node → NodeList
  | [] => .nil
  | n :: ns => .cons n (NodeList.ofList ns)

/-- Build a node from its data and children list. -/
def mkNode (ty : String) (named : Bool) (nid : Nat) (txt : String)
    (sr sc er ec : Nat) (fields : List (String × Nat)) (cs : List Node) : Node :=
  .mk { type := ty, isNamed := named, nid := nid, text := txt,
        startRow := sr, startCol := sc, endRow := er, endCol := ec }
    fields (NodeList.ofList cs)

/-- Parse tree of the one-line source `const f = () => 1;`
(spec Scenario B). -/
def treeConstArrow : Node :=
  mkNode "program" true 0 "const f = () => 1;" 0 0 0 18 []
    [mkNode "lexical_declaration" true 1 "const f = () => 1;" 0 0 0 18
      [("kind", 0)]
      [mkNode "const" false 2 "const" 0 0 0 5 [] [],
       mkNode "variable_declarator" true 3 "f = () => 1" 0 6 0 17
         [("name", 0), ("value", 2)]
         [mkNode "identifier" true 4 "f" 0 6 0 7 [] [],
          mkNode "=" false 5 "=" 0 8 0 9 [] [],
          mkNode "arrow_function" true 6 "() => 1" 0 10 0 17
            [("parameters", 0), ("body", 2)]
            [mkNode "formal_parameters" true 7 "()" 0 10 0 12 []
              [mkNode "(" false 8 "(" 0 10 0 11 [] [],
               mkNode ")" false 9 ")" 0 11 0 12 [] []],
             mkNode "=>" false 10 "=>" 0 13 0 15 [] [],
             mkNode "number" true 11 "1" 0 16 0 17 [] []]],
       mkNode ";" false 12 ";" 0 17 0 18 [] []]]

/-- Parse tree of the one-line source `function foo(){return 1;}`. -/
def treeFunctionFoo : Node :=
  mkNode "program" true 0 "function foo()\x7breturn 1;\x7d" 0 0 0 25 []
    [mkNode "function_declaration" true 1 "function foo()\x7breturn 1;\x7d" 0 0 0 25
      [("name", 1), ("parameters", 2), ("body", 3)]
      [mkNode "function" false 2 "function" 0 0 0 8 [] [],
       mkNode "identifier" true 3 "foo" 0 9 0 12 [] [],
       mkNode "formal_parameters" true 4 "()" 0 12 0 14 []
         [mkNode "(" false 5 "(" 0 12 0 13 [] [],
          mkNode ")" false 6 ")" 0 13 0 14 [] []],
       mkNode "statement_block" true 7 "\x7breturn 1;\x7d" 0 14 0 25 []
         [mkNode "\x7b" false 8 "\x7b" 0 14 0 15 [] [],
          mkNode "return_statement" true 9 "return 1;" 0 15 0 24 []
            [mkNode "return" false 10 "return" 0 15 0 21 [] [],
             mkNode "number" true 11 "1" 0 22 0 23 [] [],
             mkNode ";" false 12 ";" 0 23 0 24 [] []],
          mkNode "\x7d" false 13 "\x7d" 0 24 0 25 [] []]]]

/-- The 87-character string literal (85 `x`s in quotes) used by the
anonymous-IIFE source below. -/
def longLit : String := "\"" ++ String.mk (List.replicate 85 'x') ++ "\""

/-- Body text of the anonymous function expression below (111 chars). -/
def longFnText : String := "function () \x7b return " ++ longLit ++ "; \x7d"

/-- Source of the one-line IIFE whose anonymous function expression is
longer than 100 characters. -/
def iifeSrc : String := "(" ++ longFnText ++ ")();"

/-- Parse tree of `iifeSrc`: an expression statement calling a
parenthesized anonymous function expression. -/
def treeIife : Node :=
  mkNode "program" true 0 iifeSrc 0 0 0 116 []
    [mkNode "expression_statement" true 1 iifeSrc 0 0 0 116 []
      [mkNode "call_expression" true 2 ("(" ++ longFnText ++ ")()") 0 0 0 115
        [("function", 0), ("arguments", 1)]
        [mkNode "parenthesized_expression" true 3 ("(" ++ longFnText ++ ")") 0 0 0 113 []
          [mkNode "(" false 4 "(" 0 0 0 1 [] [],
           mkNode "function" true 5 longFnText 0 1 0 112
             [("parameters", 1), ("body", 2)]
             [mkNode "function" false 6 "function" 0 1 0 9 [] [],
              mkNode "formal_parameters" true 7 "()" 0 10 0 12 []
                [mkNode "(" false 8 "(" 0 10 0 11 [] [],
                 mkNode ")" false 9 ")" 0 11 0 12 [] []],
              mkNode "statement_block" true 10 ("\x7b return " ++ longLit ++ "; \x7d") 0 13 0 112 []
                [mkNode "\x7b" false 11 "\x7b" 0 13 0 14 [] [],
                 mkNode "return_statement" true 12 ("return " ++ longLit ++ ";") 0 15 0 110 []
                   [mkNode "return" false 13 "return" 0 15 0 21 [] [],
                    mkNode "string" true 14 longLit 0 22 0 109 [] [],
                    mkNode ";" false 15 ";" 0 109 0 110 [] []],
                 mkNode "\x7d" false 16 "\x7d" 0 111 0 112 [] []]],
           mkNode ")" false 17 ")" 0 112 0 113 [] []],
         mkNode "arguments" true 18 "()" 0 113 0 115 []
           [mkNode "(" false 19 "(" 0 113 0 114 [] [],
            mkNode ")" false 20 ")" 0 114 0 115 [] []]],
       mkNode ";" false 21 ";" 0 115 0 116 [] []]]

/-- The `function_definition` node of the one-line Python source
`def f(): pass` (13 characters). -/
def pyDefFnNode : Node :=
  mkNode "function_definition" true 1 "def f(): pass" 0 0 0 13
    [("name", 1), ("parameters", 2), ("body", 4)]
    [mkNode "def" false 2 "def" 0 0 0 3 [] [],
     mkNode "identifier" true 3 "f" 0 4 0 5 [] [],
     mkNode "parameters" true 4 "()" 0 5 0 7 []
       [mkNode "(" false 5 "(" 0 5 0 6 [] [],
        mkNode ")" false 6 ")" 0 6 0 7 [] []],
     mkNode ":" false 7 ":" 0 7 0 8 [] [],
     mkNode "block" true 8 "pass" 0 9 0 13 []
       [mkNode "pass_statement" true 9 "pass" 0 9 0 13 [] []]]

/-- Parse tree of the one-line Python source `def f(): pass`. -/
def treePyDefF : Node :=
  mkNode "module" true 0 "def f(): pass" 0 0 0 13 [] [pyDefFnNode]

/-- The `method_definition` node of `class A { m() {} }`. -/
def methodNodeAM : Node :=
  mkNode "method_definition" true 6 "m() \x7b\x7d" 0 10 0 16
    [("name", 0), ("parameters", 1), ("body", 2)]
    [mkNode "property_identifier" true 7 "m" 0 10 0 11 [] [],
     mkNode "formal_parameters" true 8 "()" 0 11 0 13 []
       [mkNode "(" false 9 "(" 0 11 0 12 [] [],
        mkNode ")" false 10 ")" 0 12 0 13 [] []],
     mkNode "statement_block" true 11 "\x7b\x7d" 0 14 0 16 []
       [mkNode "\x7b" false 12 "\x7b" 0 14 0 15 [] [],
        mkNode "\x7d" false 13 "\x7d" 0 15 0 16 [] []]]

/-- The `class_body` node of `class A { m() {} }`. -/
def bodyNodeAM : Node :=
  mkNode "class_body" true 4 "\x7b m() \x7b\x7d \x7d" 0 8 0 18 []
    [mkNode "\x7b" false 5 "\x7b" 0 8 0 9 [] [],
     methodNodeAM,
     mkNode "\x7d" false 14 "\x7d" 0 17 0 18 [] []]

/-- The identifier node `A` of `class A { m() {} }`. -/
def clsIdentAM : Node :=
  mkNode "identifier" true 3 "A" 0 6 0 7 [] []

/-- The identifier node `m` of `class A { m() {} }`. -/
def methodIdentAM : Node :=
  mkNode "property_identifier" true 7 "m" 0 10 0 11 [] []

/-- The `class_declaration` node of `class A { m() {} }`. -/
def clsNodeAM : Node :=
  mkNode "class_declaration" true 1 "class A \x7b m() \x7b\x7d \x7d" 0 0 0 18
    [("name", 1), ("body", 2)]
    [mkNode "class" false 2 "class" 0 0 0 5 [] [],
     clsIdentAM,
     bodyNodeAM]

/-- Parse tree of the one-line source `class A { m() {} }`. -/
def treeClassAM : Node :=
  mkNode "program" true 0 "class A \x7b m() \x7b\x7d \x7d" 0 0 0 18 [] [clsNodeAM]

/-! ## Slicing source text by a reported position (for the round-trip
property of spec section 8) -/

/-- Slice `src` by a `Position` (1-based lines, 0-based columns), the
inverse reading of `getPosition`. -/
def sliceByPosition (src : String) (pos : Position) : String :=
  let lines := strSplitOnChar '\n' src
  if pos.startLine = pos.endLine then
    (((lines[pos.startLine - 1]?).getD "").drop pos.startCol).take
      (pos.endCol - pos.startCol)
  else
    let first := ((lines[pos.startLine - 1]?).getD "").drop pos.startCol
    let middle := (lines.drop pos.startLine).take (pos.endLine - 1 - pos.startLine)
    let last := ((lines[pos.endLine - 1]?).getD "").take pos.endCol
    String.intercalate "\n" ([first] ++ middle ++ [last])

/-- A tree is span-consistent with a source text when every node's
reported row/column span slices out exactly that node's text — the
contract the external parser provides (spec section 6). -/
def SpanConsistent (src : String) (root : Node) : Prop :=
  ∀ p ∈ root.descendantsWithAnc, sliceByPosition src (getPosition p.1) = p.1.text

instance (src : String) (root : Node) : Decidable (SpanConsistent src root) := by
  unfold SpanConsistent
  infer_instance

/-! ## Claim theorems -/

/-- C1 counterexample: for the file `const f = () => 1;` the significance
filter removes the arrow function during extraction itself, so the
extracted functions list is empty and the per-file summary line reports
`0 functions` — not `1 function` as claimed; the raw extraction count
shown in the summary does NOT still count the dropped function. -/
theorem c1_summary_counts_zero_not_one :
    (extractJsSymbols treeConstArrow).functions.length = 0 ∧
    (extractJsSymbols treeConstArrow).functions.length ≠ 1 ∧
    renderSummaryLine "" (extractJsSymbols treeConstArrow) =
      "└── [Analyzed: 0 functions, 1 variables, 0 classes]\n" := by
  refine ⟨by decide, by decide, by decide⟩

/-- C1 (amended): for `const f = () => 1;` the name `f` is inferred for
the arrow function, the significance filter then drops it (source length
7 < 15) during extraction, so it appears neither in the detailed
functions listing nor in the summary count: the summary line reports
`0 functions` and the functions listing is empty. -/
theorem c1_arrow_dropped_everywhere :
    (∃ p ∈ treeConstArrow.descendantsOfTypeAnc
        ["function_declaration", "method_definition", "arrow_function", "function"],
      p.1.type = "arrow_function" ∧
      inferFunctionName p.1 p.2 = "f" ∧
      isSignificantFunction p.1 p.2 (inferFunctionName p.1 p.2) = false) ∧
    (extractJsSymbols treeConstArrow).functions = [] ∧
    renderSummaryLine "" (extractJsSymbols treeConstArrow) =
      "└── [Analyzed: 0 functions, 1 variables, 0 classes]\n" ∧
    renderSymbolDetails "" "functions" (extractJsSymbols treeConstArrow) = "" := by
  refine ⟨by decide, by decide, by decide, by decide⟩

/-- C3: the code contradicts its own documentation. The README documents
`["package.json", ...]` ("Exact file names") as supported file patterns,
but `isSupportedFile` compares a pattern without wildcard and without a
leading dot only against the file's dot-less extension, so the pattern
`package.json` never matches the file `a/package.json` even though its
basename equals the pattern exactly. -/
theorem isSupportedFile_exact_filename_rejected :
    pathBasename "a/package.json" = "package.json" ∧
    isSupportedFile "a/package.json" (some ["package.json"]) = false ∧
    isSupportedFile "a/package.json" (some ["json"]) = true := by
  refine ⟨by decide, by decide, by decide⟩

/-- C5: `extractCodeSymbols` returns `null` exactly when the extension
maps to no grammar, the mapped grammar is not loaded, or the external
parse step throws (modelled by `parseResult = none`; the source catches
the error and returns `null` instead of re-raising); in every other case
it returns the five-list symbol table of the matching grammar family. -/
theorem extractCodeSymbols_null_iff (loaded : List String) (fp : String)
    (parse : Option Node) :
    (extractCodeSymbols loaded fp parse = none ↔
      getLanguageFromExtension fp = none
      ∨ (∃ w, getLanguageFromExtension fp = some w ∧ loaded.contains w = false)
      ∨ parse = none)
    ∧ (∀ root w, parse = some root → getLanguageFromExtension fp = some w →
        loaded.contains w = true →
        extractCodeSymbols loaded fp parse =
          some (if w == "tree-sitter-javascript.wasm" then extractJsSymbols root
                else if w == "tree-sitter-python.wasm" then extractPySymbols root
                else { functions := [], «variables» := [], classes := [],
                       imports := [], exports := [] })) := by
  unfold extractCodeSymbols
  cases h : getLanguageFromExtension fp with
  | none =>
    refine ⟨by simp, ?_⟩
    intro root w _ hw
    simp at hw
  | some w =>
    cases hc : loaded.contains w with
    | false =>
      refine ⟨?_, ?_⟩
      · simp only [hc, Bool.false_eq_true, if_false]
        constructor
        · intro _
          exact Or.inr (Or.inl ⟨w, rfl, hc⟩)
        · intro _
          trivial
      · intro root w' _ hw hl
        rw [Option.some.injEq] at hw
        subst hw
        rw [hc] at hl
        exact absurd hl (by simp)
    | true =>
      cases parse with
      | none =>
        refine ⟨by simp [hc], ?_⟩
        intro root w' hp
        exact absurd hp (by simp)
      | some root =>
        refine ⟨?_, ?_⟩
        · simp only [hc, if_true]
          constructor
          · intro hcontra
            by_cases hjs : (w == "tree-sitter-javascript.wasm") = true
            · simp [hjs] at hcontra
            · by_cases hpy : (w == "tree-sitter-python.wasm") = true
              · simp [hjs, hpy] at hcontra
              · simp [hjs, hpy] at hcontra
          · rintro (h1 | ⟨w', hw', hl⟩ | h3)
            · simp at h1
            · rw [Option.some.injEq] at hw'
              subst hw'
              rw [hc] at hl
              simp at hl
            · simp at h3
        · intro root' w' hp hw _
          rw [Option.some.injEq] at hp hw
          subst hp
          subst hw
          simp only [hc, if_true]
          by_cases hjs : w = "tree-sitter-javascript.wasm"
          · simp [hjs]
          · by_cases hpy : w = "tree-sitter-python.wasm"
            · simp [hjs, hpy]
            · simp [hjs, hpy]

/-- C5 witness: a concrete application with every hypothesis discharged.
With the JavaScript grammar loaded, a `.js` path and a successful parse,
extraction returns the JavaScript-family table. -/
theorem extractCodeSymbols_null_iff_witness :
    (some treeFunctionFoo = some treeFunctionFoo) ∧
    getLanguageFromExtension "a.js" = some "tree-sitter-javascript.wasm" ∧
    ["tree-sitter-javascript.wasm"].contains "tree-sitter-javascript.wasm" = true ∧
    extractCodeSymbols ["tree-sitter-javascript.wasm"] "a.js" (some treeFunctionFoo) =
      some (if ("tree-sitter-javascript.wasm" == "tree-sitter-javascript.wasm")
            then extractJsSymbols treeFunctionFoo
            else if ("tree-sitter-javascript.wasm" == "tree-sitter-python.wasm")
            then extractPySymbols treeFunctionFoo
            else { functions := [], «variables» := [], classes := [],
                   imports := [], exports := [] }) :=
  ⟨rfl, by decide, by decide,
   (extractCodeSymbols_null_iff ["tree-sitter-javascript.wasm"] "a.js"
     (some treeFunctionFoo)).2 treeFunctionFoo "tree-sitter-javascript.wasm"
     rfl (by decide) (by decide)⟩

/-! ## Decidable equality for nodes -/

mutual
def Node.beq : Node → Node → Bool
  | .mk d1 f1 c1, .mk d2 f2 c2 => d1 == d2 && f1 == f2 && NodeList.beq c1 c2
def NodeList.beq : NodeList → NodeList → Bool
  | .nil, .nil => true
  | .cons a as, .cons b bs => Node.beq a b && NodeList.beq as bs
  | .nil, .cons _ _ => false
  | .cons _ _, .nil => false
end

mutual
theorem Node.beq_iff_eq_node : ∀ a b : Node, Node.beq a b = true ↔ a = b
  | .mk d1 f1 c1, .mk d2 f2 c2 => by
    simp [Node.beq, NodeList.beq_iff_eq_list c1 c2, and_assoc]
theorem NodeList.beq_iff_eq_list : ∀ a b : NodeList, NodeList.beq a b = true ↔ a = b
  | .nil, .nil => by simp [NodeList.beq]
  | .nil, .cons _ _ => by simp [NodeList.beq]
  | .cons _ _, .nil => by simp [NodeList.beq]
  | .cons a as, .cons b bs => by
    simp [NodeList.beq, Node.beq_iff_eq_node a b, NodeList.beq_iff_eq_list as bs]
end

instance : DecidableEq Node :=
  fun a b => decidable_of_iff (Node.beq a b = true) (Node.beq_iff_eq_node a b)

/-! ## Claim support lemmas -/

/-- Filtering the functions list by non-anonymity before rendering does
not change the detailed listing: the renderer itself applies the same
filter. -/
theorem renderSymbolDetails_filter_anonymous (childIndent symbolType : String)
    (st : FileSymbolTable) :
    renderSymbolDetails childIndent symbolType
      { st with functions := st.functions.filter (fun fn => fn.name != "anonymous") }
    = renderSymbolDetails childIndent symbolType st := by
  have hff : (st.functions.filter (fun fn => fn.name != "anonymous")).filter
      (fun fn => fn.name != "anonymous")
      = st.functions.filter (fun fn => fn.name != "anonymous") := by
    rw [List.filter_filter]
    simp
  rcases Nat.eq_zero_or_pos
      (st.functions.filter (fun fn => fn.name != "anonymous")).length with hz | hpos
  · simp [renderSymbolDetails, hff, hz]
  · have hpos2 : 0 < st.functions.length :=
      Nat.lt_of_lt_of_le hpos (List.length_filter_le _ _)
    simp [renderSymbolDetails, hff, hpos, hpos2]

/-- C6: the detailed functions listing drops every record whose name is
literally `"anonymous"`, regardless of the significance filter applied
during extraction: rendering is invariant under pre-filtering the
functions list by non-anonymity, and concretely, the anonymous IIFE
function of 111 characters survives extraction (it is counted as
`1 functions` by the summary line) yet the detailed listing for it is
empty for both `functions` and `all`. -/
theorem functionsListing_drops_anonymous :
    (∀ (childIndent symbolType : String) (st : FileSymbolTable),
      renderSymbolDetails childIndent symbolType
        { st with functions := st.functions.filter (fun fn => fn.name != "anonymous") }
      = renderSymbolDetails childIndent symbolType st)
    ∧ (extractJsSymbols treeIife).functions.map FunctionRecord.name = ["anonymous"]
    ∧ (extractJsSymbols treeIife).functions.length = 1
    ∧ (extractJsSymbols treeIife).functions.map (fun f => f.code.length) = [111]
    ∧ renderSummaryLine "" (extractJsSymbols treeIife) =
        "└── [Analyzed: 1 functions, 0 variables, 0 classes]\n"
    ∧ renderSymbolDetails "" "functions" (extractJsSymbols treeIife) = ""
    ∧ renderSymbolDetails "" "all" (extractJsSymbols treeIife) = "" := by
  exact ⟨renderSymbolDetails_filter_anonymous, by decide, by decide, by decide,
    by decide, by decide, by decide⟩

/-- C8: extraction is pure and deterministic given fixed input — two runs
of `extractCodeSymbols` on identical inputs give identical tables — and
moreover the file path influences the result only through its extension's
grammar lookup. -/
theorem extractCodeSymbols_deterministic (loaded : List String)
    (fp1 fp2 : String) (parse : Option Node) :
    extractCodeSymbols loaded fp1 parse = extractCodeSymbols loaded fp1 parse
    ∧ (getLanguageFromExtension fp1 = getLanguageFromExtension fp2 →
        extractCodeSymbols loaded fp1 parse = extractCodeSymbols loaded fp2 parse) := by
  refine ⟨rfl, ?_⟩
  intro h
  unfold extractCodeSymbols
  rw [h]

/-- C8 witness: two runs on the same `.js` input agree, and a `.jsx`
path with the same grammar yields the same table. -/
theorem extractCodeSymbols_deterministic_witness :
    getLanguageFromExtension "a.js" = getLanguageFromExtension "b/c.jsx"
    ∧ extractCodeSymbols ["tree-sitter-javascript.wasm"] "a.js" (some treeFunctionFoo)
      = extractCodeSymbols ["tree-sitter-javascript.wasm"] "b/c.jsx"
          (some treeFunctionFoo) :=
  ⟨by decide,
   (extractCodeSymbols_deterministic ["tree-sitter-javascript.wasm"] "a.js" "b/c.jsx"
     (some treeFunctionFoo)).2 (by decide)⟩

/-- C9: in the Python branch every `function_definition` node yields a
Function record unconditionally (one record per node, none filtered),
the significance filter being applied only in the JavaScript-family
branch; concretely, the 13-character `def f(): pass` (shorter than the
15-character arrow threshold) is still recorded. -/
theorem pythonFunctions_unconditional :
    (∀ root : Node, (extractPySymbols root).functions.length =
        (root.descendantsOfType ["function_definition"]).length)
    ∧ (∀ root : Node, ∀ p ∈ root.descendantsOfTypeAnc ["function_definition"],
        ∃ f ∈ (extractPySymbols root).functions,
          f.position = getPosition p.1 ∧ f.code = p.1.text)
    ∧ (extractPySymbols treePyDefF).functions =
        [{ name := "f", parent := none,
           position := { startLine := 1, startCol := 0, endLine := 1, endCol := 13 },
           code := "def f(): pass" }]
    ∧ "def f(): pass".length < 15 := by
  refine ⟨?_, ?_, by decide, by decide⟩
  · intro root
    simp [extractPySymbols, extractPyFunctions, Node.descendantsOfType]
  · intro root p hp
    exact ⟨_, List.mem_map_of_mem _ hp, rfl, rfl⟩

/-- C9 witness: the `def f(): pass` node is a `function_definition`
descendant of its module tree, and the corresponding record is among the
extracted functions with its position and code. -/
theorem pythonFunctions_unconditional_witness :
    (pyDefFnNode, [treePyDefF]) ∈ treePyDefF.descendantsOfTypeAnc ["function_definition"]
    ∧ ∃ f ∈ (extractPySymbols treePyDefF).functions,
        f.position = getPosition pyDefFnNode ∧ f.code = pyDefFnNode.text :=
  ⟨by decide,
   (pythonFunctions_unconditional.2.1) treePyDefF (pyDefFnNode, [treePyDefF])
     (by decide)⟩

/-! ## Traversal lemmas -/

mutual
/-- Ancestor seeds act by appending: listing a subtree under a longer
seed appends the extra ancestors to every recorded chain. -/
theorem descAux_seed_append : ∀ (t : Node) (a0 anc : List Node),
    descAux (a0 ++ anc) t = (descAux a0 t).map (fun p => (p.1, p.2 ++ anc))
  | .mk d f cs, a0, anc => by
    simp only [descAux, List.map_cons]
    rw [show Node.mk d f cs :: (a0 ++ anc) = (Node.mk d f cs :: a0) ++ anc from rfl,
      descListAux_seed_append cs (Node.mk d f cs :: a0) anc]
theorem descListAux_seed_append : ∀ (cs : NodeList) (a0 anc : List Node),
    descListAux (a0 ++ anc) cs = (descListAux a0 cs).map (fun p => (p.1, p.2 ++ anc))
  | .nil, _, _ => by simp [descListAux]
  | .cons c cs, a0, anc => by
    simp [descListAux, descAux_seed_append c a0 anc, descListAux_seed_append cs a0 anc]
end

mutual
/-- Transitivity of subtree listing: a node of the subtree of `c`
appears, with concatenated ancestor chain, in the listing of any tree
containing `c`. -/
theorem descAux_trans : ∀ (t n c : Node) (a ac : List Node),
    (n, a) ∈ descAux [] c → (c, ac) ∈ descAux [] t → (n, a ++ ac) ∈ descAux [] t
  | .mk d f cs, n, c, a, ac, h1, h2 => by
    simp only [descAux] at h2 ⊢
    rcases List.mem_cons.mp h2 with heq | htail
    · rw [Prod.mk.injEq] at heq
      obtain ⟨hc, hac⟩ := heq
      subst hc
      subst hac
      simpa [descAux] using h1
    · have hseed : descListAux [Node.mk d f cs] cs
          = (descListAux [] cs).map (fun p => (p.1, p.2 ++ [Node.mk d f cs])) := by
        have := descListAux_seed_append cs [] [Node.mk d f cs]
        simpa using this
      rw [hseed] at htail
      obtain ⟨p, hp, hpe⟩ := List.mem_map.mp htail
      rw [Prod.mk.injEq] at hpe
      obtain ⟨hp1, hp2⟩ := hpe
      have hrec := descListAux_trans cs n p.1 a p.2 (hp1 ▸ h1) hp
      refine List.mem_cons_of_mem _ ?_
      rw [hseed]
      refine List.mem_map.mpr ⟨(n, a ++ p.2), hrec, ?_⟩
      rw [Prod.mk.injEq]
      exact ⟨rfl, by rw [← hp2, List.append_assoc]⟩
theorem descListAux_trans : ∀ (cs : NodeList) (n c : Node) (a ac : List Node),
    (n, a) ∈ descAux [] c → (c, ac) ∈ descListAux [] cs →
    (n, a ++ ac) ∈ descListAux [] cs
  | .cons e es, n, c, a, ac, h1, h2 => by
    simp only [descListAux] at h2 ⊢
    rcases List.mem_append.mp h2 with hl | hr
    · exact List.mem_append_left _ (descAux_trans e n c a ac h1 hl)
    · exact List.mem_append_right _ (descListAux_trans es n c a ac h1 hr)
end

/-- Every JavaScript-family function record carries exactly the position
and source text of the tree node it was extracted from. -/
theorem extractJsFunctions_from_node (root : Node) :
    ∀ f ∈ extractJsFunctions root,
      ∃ p ∈ root.descendantsWithAnc,
        f.position = getPosition p.1 ∧ f.code = p.1.text := by
  intro f hf
  obtain ⟨p, hp, hg⟩ := List.mem_filterMap.mp hf
  have hpmem : p ∈ root.descendantsWithAnc := (List.mem_filter.mp hp).1
  refine ⟨p, hpmem, ?_⟩
  dsimp only at hg
  repeat' split at hg
  all_goals (try cases hg)
  all_goals (try (rw [Option.some.injEq] at hg; subst hg))
  all_goals exact ⟨rfl, rfl⟩

/-- Every Python function record carries exactly the position and source
text of the tree node it was extracted from. -/
theorem extractPyFunctions_from_node (root : Node) :
    ∀ f ∈ extractPyFunctions root,
      ∃ p ∈ root.descendantsWithAnc,
        f.position = getPosition p.1 ∧ f.code = p.1.text := by
  intro f hf
  obtain ⟨p, hp, hg⟩ := List.mem_map.mp hf
  have hpmem : p ∈ root.descendantsWithAnc := (List.mem_filter.mp hp).1
  refine ⟨p, hpmem, ?_⟩
  subst hg
  exact ⟨rfl, rfl⟩

/-- C7: every extracted Function record's position is the node's
row/column span shifted to 1-based lines and 0-based columns
(`getPosition`), its code is the node's text, and — whenever the parse
tree is span-consistent with the source text, as the external parser
guarantees — slicing the source by the reported position reproduces the
record's code text exactly (hence in particular up to whitespace). -/
theorem positions_roundtrip (src : String) (loaded : List String) (fp : String)
    (root : Node) (tbl : FileSymbolTable)
    (hx : extractCodeSymbols loaded fp (some root) = some tbl)
    (hcons : SpanConsistent src root) :
    ∀ f ∈ tbl.functions,
      ∃ p ∈ root.descendantsWithAnc,
        f.position = getPosition p.1 ∧ f.code = p.1.text ∧
        sliceByPosition src f.position = f.code := by
  have main : ∀ f ∈ tbl.functions,
      ∃ p ∈ root.descendantsWithAnc,
        f.position = getPosition p.1 ∧ f.code = p.1.text := by
    unfold extractCodeSymbols at hx
    cases hlang : getLanguageFromExtension fp with
    | none =>
      rw [hlang] at hx
      dsimp only at hx
      cases hx
    | some w =>
      rw [hlang] at hx
      dsimp only at hx
      by_cases hcont : loaded.contains w = true
      · rw [if_pos hcont] at hx
        by_cases hjs : (w == "tree-sitter-javascript.wasm") = true
        · rw [if_pos hjs, Option.some.injEq] at hx
          subst hx
          exact extractJsFunctions_from_node root
        · rw [if_neg hjs] at hx
          by_cases hpy : (w == "tree-sitter-python.wasm") = true
          · rw [if_pos hpy, Option.some.injEq] at hx
            subst hx
            exact extractPyFunctions_from_node root
          · rw [if_neg hpy, Option.some.injEq] at hx
            subst hx
            intro f hf
            cases hf
      · rw [if_neg hcont] at hx
        cases hx
  intro f hf
  obtain ⟨p, hpmem, hpos, hcode⟩ := main f hf
  exact ⟨p, hpmem, hpos, hcode, by rw [hpos, hcode]; exact hcons p hpmem⟩

/-- C7 witness: for `function foo(){return 1;}` the tree is
span-consistent with the source, extraction succeeds, and the round-trip
property follows for all of its function records. -/
theorem positions_roundtrip_witness :
    extractCodeSymbols ["tree-sitter-javascript.wasm"] "a.js" (some treeFunctionFoo)
      = some (extractJsSymbols treeFunctionFoo)
    ∧ SpanConsistent "function foo()\x7breturn 1;\x7d" treeFunctionFoo
    ∧ ∀ f ∈ (extractJsSymbols treeFunctionFoo).functions,
        ∃ p ∈ treeFunctionFoo.descendantsWithAnc,
          f.position = getPosition p.1 ∧ f.code = p.1.text ∧
          sliceByPosition "function foo()\x7breturn 1;\x7d" f.position = f.code :=
  ⟨by decide, by decide,
   positions_roundtrip "function foo()\x7breturn 1;\x7d" ["tree-sitter-javascript.wasm"]
     "a.js" treeFunctionFoo (extractJsSymbols treeFunctionFoo) (by decide) (by decide)⟩

/-- A named class declaration yields a class record whose methods list
contains one record per named `method_definition` descendant. -/
theorem mem_extractJsClasses (root cls clsName : Node)
    (h : cls ∈ root.descendantsOfType ["class_declaration"])
    (hn : cls.childForFieldName "name" = some clsName) :
    ∃ c ∈ extractJsClasses root,
      c.name = clsName.text ∧ c.position = getPosition cls ∧ c.code = cls.text ∧
      ∀ mnode mIdent, mnode ∈ cls.descendantsOfType ["method_definition"] →
        mnode.childForFieldName "name" = some mIdent →
        ∃ mr ∈ c.methods, mr.name = mIdent.text ∧
          mr.position = getPosition mnode ∧ mr.code = mnode.text := by
  unfold extractJsClasses
  refine ⟨{ name := clsName.text, position := getPosition cls,
            methods := (cls.descendantsOfType ["method_definition"]).filterMap
              (fun methodNode =>
                match methodNode.childForFieldName "name" with
                | some methodNameNode =>
                  some { name := methodNameNode.text,
                         position := getPosition methodNode,
                         isStatic := match methodNode.childForFieldName "static" with
                           | some s => s.text == "static"
                           | none => false,
                         code := methodNode.text }
                | none => none),
            code := cls.text },
          List.mem_filterMap.mpr ⟨cls, h, ?_⟩, rfl, rfl, rfl, ?_⟩
  · dsimp only
    rw [hn]
  · intro mnode mIdent hmn hmi
    refine ⟨{ name := mIdent.text, position := getPosition mnode,
              isStatic := match mnode.childForFieldName "static" with
                | some s => s.text == "static"
                | none => false,
              code := mnode.text },
            List.mem_filterMap.mpr ⟨mnode, hmn, ?_⟩, rfl, rfl, rfl⟩
    dsimp only
    rw [hmi]

/-- C10: a named method definition directly inside a named class
declaration is recorded twice by the JavaScript-family extractor: once
as a Function record (with `parent` set to the class name) in the
functions list, and once as a Method record inside that class's record —
so function counts include class methods. The hypotheses say: `cls` is a
class declaration node somewhere in the tree with name node `clsName`;
`m` is a method definition whose parent is the class-body child `b` of
`cls`; `m` has name node `mName`, not literally named `anonymous`. -/
theorem method_recorded_in_functions_and_class
    (root cls b m clsName mName : Node) (ancC : List Node)
    (hcls : (cls, ancC) ∈ root.descendantsWithAnc)
    (hclsTy : cls.type = "class_declaration")
    (hclsName : cls.childForFieldName "name" = some clsName)
    (hm : (m, [b, cls]) ∈ cls.descendantsWithAnc)
    (hmTy : m.type = "method_definition")
    (hbTy : b.type = "class_body")
    (hmName : m.childForFieldName "name" = some mName)
    (hAnon : mName.text ≠ "anonymous") :
    ({ name := mName.text, parent := some clsName.text,
       position := getPosition m, code := m.text } : FunctionRecord)
      ∈ (extractJsSymbols root).functions
    ∧ ∃ c ∈ (extractJsSymbols root).classes,
        c.name = clsName.text ∧
        ∃ mr ∈ c.methods, mr.name = mName.text ∧
          mr.position = getPosition m ∧ mr.code = m.text := by
  have hmem : (m, b :: cls :: ancC) ∈ root.descendantsWithAnc :=
    descAux_trans root m cls [b, cls] ancC hm hcls
  have hsig : isSignificantFunction m (b :: cls :: ancC) mName.text = true := by
    unfold isSignificantFunction
    simp [hmTy, hbTy, hAnon]
  constructor
  · show _ ∈ extractJsFunctions root
    unfold extractJsFunctions
    refine List.mem_filterMap.mpr ⟨(m, b :: cls :: ancC), ?_, ?_⟩
    · refine List.mem_filter.mpr ⟨hmem, ?_⟩
      show (["function_declaration", "method_definition", "arrow_function",
        "function"].contains m.data.type) = true
      have hmTy' : m.data.type = "method_definition" := hmTy
      rw [hmTy']
      decide
    · dsimp only
      simp only [Node.type] at hmTy hclsTy
      simp [hmTy, hclsTy, hmName, hclsName, hsig, Node.type]
  · have hclsm : cls ∈ root.descendantsOfType ["class_declaration"] := by
      refine List.mem_map.mpr ⟨(cls, ancC), List.mem_filter.mpr ⟨hcls, ?_⟩, rfl⟩
      show (["class_declaration"].contains cls.data.type) = true
      have : cls.data.type = "class_declaration" := hclsTy
      rw [this]
      decide
    have hmm : m ∈ cls.descendantsOfType ["method_definition"] := by
      refine List.mem_map.mpr ⟨(m, [b, cls]), List.mem_filter.mpr ⟨hm, ?_⟩, rfl⟩
      show (["method_definition"].contains m.data.type) = true
      have : m.data.type = "method_definition" := hmTy
      rw [this]
      decide
    obtain ⟨c, hcmem, hcname, _, _, hmeth⟩ :=
      mem_extractJsClasses root cls clsName hclsm hclsName
    obtain ⟨mr, hmrmem, h1, h2, h3⟩ := hmeth m mName hmm hmName
    exact ⟨c, hcmem, hcname, mr, hmrmem, h1, h2, h3⟩

/-- C10 witness: in `class A { m() {} }` the method `m` appears both as
a Function record with parent `A` and as a Method record of class `A`. -/
theorem method_recorded_in_functions_and_class_witness :
    ((clsNodeAM, [treeClassAM]) ∈ treeClassAM.descendantsWithAnc
      ∧ clsNodeAM.type = "class_declaration"
      ∧ clsNodeAM.childForFieldName "name" = some clsIdentAM
      ∧ (methodNodeAM, [bodyNodeAM, clsNodeAM]) ∈ clsNodeAM.descendantsWithAnc
      ∧ methodNodeAM.type = "method_definition"
      ∧ bodyNodeAM.type = "class_body"
      ∧ methodNodeAM.childForFieldName "name" = some methodIdentAM
      ∧ methodIdentAM.text ≠ "anonymous")
    ∧ (({ name := methodIdentAM.text, parent := some clsIdentAM.text,
          position := getPosition methodNodeAM, code := methodNodeAM.text }
          : FunctionRecord)
        ∈ (extractJsSymbols treeClassAM).functions
      ∧ ∃ c ∈ (extractJsSymbols treeClassAM).classes,
          c.name = clsIdentAM.text ∧
          ∃ mr ∈ c.methods, mr.name = methodIdentAM.text ∧
            mr.position = getPosition methodNodeAM ∧ mr.code = methodNodeAM.text) :=
  ⟨⟨by decide, by decide, by decide, by decide, by decide, by decide, by decide,
    by decide⟩,
   method_recorded_in_functions_and_class treeClassAM clsNodeAM bodyNodeAM
     methodNodeAM clsIdentAM methodIdentAM [treeClassAM]
     (by decide) (by decide) (by decide) (by decide) (by decide) (by decide)
     (by decide) (by decide)⟩

/-! ## Regex-matching lemmas for literal gitignore patterns (claim C4) -/

/-- A plain literal character: one that the gitignore compiler passes
through unchanged and the regex interpreter treats as a literal. -/
def PlainChar (c : Char) : Prop :=
  c.isAlphanum = true ∨ c = '_' ∨ c = '-'

instance (c : Char) : Decidable (PlainChar c) := by
  unfold PlainChar
  infer_instance

/-- A plain character is none of the regex/glob metacharacters. -/
theorem plainChar_ne (c : Char) (h : PlainChar c) :
    c ≠ '(' ∧ c ≠ '^' ∧ c ≠ '$' ∧ c ≠ '\\' ∧ c ≠ '[' ∧ c ≠ '.' ∧ c ≠ '*' ∧
    c ≠ '/' ∧ c ≠ '?' ∧ c ≠ '#' := by
  rcases h with h | h | h
  · refine ⟨?_, ?_, ?_, ?_, ?_, ?_, ?_, ?_, ?_, ?_⟩ <;>
      (intro heq; subst heq; exact absurd h (by decide))
  · subst h
    decide
  · subst h
    decide

theorem charsPrefixOf_refl : ∀ l : List Char, charsPrefixOf l l = true
  | [] => rfl
  | c :: t => by simp [charsPrefixOf, charsPrefixOf_refl t]

/-- Unpack a prefix fact at a position: the character there is the
pattern's head and the tail is a prefix one position further. -/
theorem charsPrefixOf_drop_cons (c : Char) (l s : List Char) (i : Nat)
    (h : charsPrefixOf (c :: l) (s.drop i) = true) :
    s[i]? = some c ∧ charsPrefixOf l (s.drop (i + 1)) = true := by
  cases hsd : s.drop i with
  | nil => rw [hsd] at h; simp [charsPrefixOf] at h
  | cons b t =>
    rw [hsd] at h
    simp only [charsPrefixOf, Bool.and_eq_true, beq_iff_eq] at h
    obtain ⟨hcb, htail⟩ := h
    subst hcb
    have hdrop : s.drop (i + 1) = t := by
      have : s.drop (i + 1) = (s.drop i).drop 1 := by
        rw [List.drop_drop, Nat.add_comm]
      rw [this, hsd]
      rfl
    have hget : s[i]? = some c := by
      have h0 : (s.drop i)[0]? = some c := by rw [hsd]; simp
      rw [List.getElem?_drop] at h0
      simpa using h0
    exact ⟨hget, hdrop ▸ htail⟩

/-- A pattern starting with a character absent from the text never
occurs in it. -/
theorem charsContains_not_mem (c0 : Char) (t : List Char) :
    ∀ l : List Char, c0 ∉ l → charsContains l (c0 :: t) = false
  | [], _ => rfl
  | h :: l', hnm => by
    have hne : c0 ≠ h := fun he => hnm (he ▸ List.mem_cons_self h l')
    have hrec := charsContains_not_mem c0 t l' (fun hm => hnm (List.mem_cons_of_mem h hm))
    simp [charsContains, charsPrefixOf, hrec, Bool.or_eq_false_iff]
    intro he
    exact absurd he hne

theorem strReplaceAux_no_occ (pat : List Char) (rep : List Char)
    (hpat : ∃ c0 t, pat = c0 :: t) :
    ∀ (fuel : Nat) (l : List Char), charsContains l pat = false →
      strReplaceAux pat rep fuel l = l
  | 0, l, _ => rfl
  | _ + 1, [], _ => rfl
  | fuel + 1, h :: t, hocc => by
    obtain ⟨c0, t0, hp⟩ := hpat
    have h1 : charsPrefixOf pat (h :: t) = false := by
      rcases hf : charsPrefixOf pat (h :: t) with _ | _
      · rfl
      · rw [show charsContains (h :: t) pat
            = (charsPrefixOf pat (h :: t) || charsContains t pat) from rfl, hf] at hocc
        simp at hocc
    have h2 : charsContains t pat = false := by
      rw [show charsContains (h :: t) pat
          = (charsPrefixOf pat (h :: t) || charsContains t pat) from rfl] at hocc
      rcases Bool.or_eq_false_iff.mp hocc with ⟨_, hr⟩
      exact hr
    simp only [strReplaceAux, h1, Bool.false_eq_true, if_false]
    rw [strReplaceAux_no_occ pat rep ⟨c0, t0, hp⟩ fuel t h2]

/-- Replacing a pattern that does not occur leaves the string unchanged. -/
theorem strReplace_no_occ (s pat rep : String)
    (hpat : pat.data ≠ []) (hocc : charsContains s.data pat.data = false) :
    strReplace s pat rep = s := by
  unfold strReplace
  have : pat.data.isEmpty = false := by
    cases hp : pat.data
    · exact absurd hp hpat
    · rfl
  rw [if_neg (by simp [this])]
  cases hp : pat.data with
  | nil => exact absurd hp hpat
  | cons c0 t0 =>
    rw [strReplaceAux_no_occ (c0 :: t0) rep.data ⟨c0, t0, rfl⟩ s.data.length s.data
      (hp ▸ hocc)]

/-- One literal matching step: a plain character at the head of the
pattern consumes the equal character of the text. -/
theorem rxMatch_lit_step (c : Char) (rest2 s : List Char) (i f : Nat)
    (hc : PlainChar c) (hstar : rest2.head? ≠ some '*')
    (hgi : s[i]? = some c)
    (h : rxMatch f rest2 s (i + 1) = true) :
    rxMatch (f + 1) (c :: rest2) s i = true := by
  obtain ⟨hc1, hc2, hc3, hc4, hc5, hc6, hc7, hc8, hc9, hc10⟩ := plainChar_ne c hc
  unfold rxMatch
  split
  case h_12 =>
    rename_i heqf heqcr
    injection heqcr with hceq hreq
    injection heqf with hff
    subst hceq
    subst hreq
    subst hff
    rw [hgi]
    simp [h]
  all_goals (exfalso; simp_all)

/-- Consuming a run of plain literal characters: if the pattern continues
with `rest` (not starting with a quantifier) and the text at offset `i`
starts with the run `l`, a successful match of `rest` after the run
lifts to a successful match of `l ++ rest` at `i`. -/
theorem rxMatch_lits : ∀ (l : List Char) (rest s : List Char) (i f : Nat),
    (∀ c ∈ l, PlainChar c) →
    rest.head? ≠ some '*' →
    charsPrefixOf l (s.drop i) = true →
    rxMatch f rest s (i + l.length) = true →
    rxMatch (f + l.length) (l ++ rest) s i = true
  | [], rest, s, i, f, _, _, _, h => by simpa using h
  | c :: l', rest, s, i, f, hplain, hstar, hpre, h => by
    obtain ⟨hgi, hpre'⟩ := charsPrefixOf_drop_cons c l' s i hpre
    have hplc : PlainChar c := hplain c (List.mem_cons_self _ _)
    have hnext : (l' ++ rest).head? ≠ some '*' := by
      cases l' with
      | nil => simpa using hstar
      | cons d l'' =>
        have hd : PlainChar d := hplain d (by simp)
        have hdne := (plainChar_ne d hd).2.2.2.2.2.2.1
        simp [hdne]
    have hrec : rxMatch (f + l'.length) (l' ++ rest) s (i + 1) = true := by
      apply rxMatch_lits l' rest s (i + 1) f
        (fun d hd => hplain d (List.mem_cons_of_mem _ hd)) hstar hpre'
      have harith : i + 1 + l'.length = i + (c :: l').length := by
        simp [List.length_cons]
        omega
      rw [harith]
      exact h
    have hstep := rxMatch_lit_step c (l' ++ rest) s i (f + l'.length) hplc hnext hgi hrec
    have harith2 : f + (c :: l').length = (f + l'.length) + 1 := by
      simp [List.length_cons]
      omega
    rw [harith2]
    exact hstep

/-- The `^` anchor at offset 0 just passes through. -/
theorem rxMatch_caret (rest s : List Char) (k : Nat)
    (h : rxMatch k rest s 0 = true) :
    rxMatch (k + 1) ('^' :: rest) s 0 = true := by
  rw [rxMatch]
  rw [if_pos rfl]
  exact h

/-- Entering the compiled prefix group `(^|.*/|^/)` through its first
alternative. -/
theorem rxMatch_open (cont s : List Char) (k : Nat)
    (h : rxMatch k ('^' :: cont) s 0 = true) :
    rxMatch (k + 1) ("(^|.*/|^/)".data ++ cont) s 0 = true := by
  have hsplit : rxGroupSplit ("^|.*/|^/)".data ++ cont) 0 [] []
      = some ([['^'], ['.', '*', '/'], ['^', '/']], cont) := rfl
  show rxMatch (k + 1) ('(' :: ("^|.*/|^/)".data ++ cont)) s 0 = true
  rw [rxMatch, hsplit]
  simp only [List.any_cons, Bool.or_eq_true]
  left
  exact h

/-- The compiled suffix group `($|/.*)` accepts at the end of the text
through its `$` alternative. -/
theorem rxMatch_suffix (s : List Char) (k : Nat) :
    rxMatch (k + 1 + 1 + 1) ("($|/.*)".data) s s.length = true := by
  have hsplit : rxGroupSplit ("$|/.*)".data) 0 [] []
      = some ([['$'], ['/', '.', '*']], []) := rfl
  show rxMatch (k + 1 + 1 + 1) ('(' :: "$|/.*)".data) s s.length = true
  rw [rxMatch, hsplit]
  simp only [List.any_cons, Bool.or_eq_true]
  left
  show rxMatch (k + 1 + 1) ('$' :: ([] : List Char)) s s.length = true
  rw [rxMatch]
  rw [if_pos rfl]
  rw [rxMatch]

/-- The compiled pattern of a plain literal name matches the bare name
itself: entering through `^`, consuming the literal, ending through `$`. -/
theorem compiled_literal_matches_name (nm : String)
    (hplain : ∀ c ∈ nm.data, PlainChar c) :
    rxTest ("(^|.*/|^/)" ++ nm ++ "($|/.*)") nm = true := by
  unfold rxTest
  refine List.any_eq_true.mpr ⟨0, List.mem_range.mpr (by omega), ?_⟩
  have hdata : ("(^|.*/|^/)" ++ nm ++ "($|/.*)").data
      = "(^|.*/|^/)".data ++ (nm.data ++ "($|/.*)".data) := by
    simp [String.data_append]
  have hlen : ("(^|.*/|^/)" ++ nm ++ "($|/.*)").length = nm.length + 17 := by
    simp [String.length_append]
    have h1 : ("(^|.*/|^/)" : String).length = 10 := rfl
    have h2 : ("($|/.*)" : String).length = 7 := rfl
    omega
  have hge : nm.length + 5 ≤ rxFuel ("(^|.*/|^/)" ++ nm ++ "($|/.*)") nm := by
    unfold rxFuel
    rw [hlen]
    nlinarith [Nat.zero_le nm.length]
  obtain ⟨k, hk⟩ := Nat.exists_eq_add_of_le hge
  have hdl : nm.data.length = nm.length := rfl
  have hfe : rxFuel ("(^|.*/|^/)" ++ nm ++ "($|/.*)") nm
      = ((((k + 1 + 1 + 1) + nm.data.length) + 1) + 1) := by omega
  rw [hdata, hfe]
  apply rxMatch_open
  apply rxMatch_caret
  apply rxMatch_lits nm.data ("($|/.*)".data) nm.data 0 (k + 1 + 1 + 1) hplain
    (by decide) (by simpa using charsPrefixOf_refl nm.data)
  rw [Nat.zero_add]
  exact rxMatch_suffix nm.data k

/-- Compiling a literal directory name line (with or without trailing
slash) yields the unanchored segment pattern around the unchanged name. -/
theorem parseGitignoreLine_literal (nm line : String)
    (hplain : ∀ c ∈ nm.data, PlainChar c)
    (hnds : charsContains nm.data ("__DOUBLE_STAR__".data) = false)
    (hnm : nm ≠ "node_modules")
    (hl : line = nm ∨ line = nm ++ "/") :
    parseGitignoreLine line = "(^|.*/|^/)" ++ nm ++ "($|/.*)" := by
  have hslash : '/' ∉ nm.data := fun hm =>
    (plainChar_ne '/' (hplain _ hm)).2.2.2.2.2.2.2.1 rfl
  have hdot : '.' ∉ nm.data := fun hm =>
    (plainChar_ne '.' (hplain _ hm)).2.2.2.2.2.1 rfl
  have hstarn : '*' ∉ nm.data := fun hm =>
    (plainChar_ne '*' (hplain _ hm)).2.2.2.2.2.2.1 rfl
  have hq : '?' ∉ nm.data := fun hm =>
    (plainChar_ne '?' (hplain _ hm)).2.2.2.2.2.2.2.2.1 rfl
  have hne1 : line ≠ "node_modules" := by
    rcases hl with h | h
    · rw [h]; exact hnm
    · rw [h]
      intro he
      have hd := congrArg String.data he
      rw [String.data_append] at hd
      have : '/' ∈ ("node_modules" : String).data := by
        rw [← hd]
        exact List.mem_append_right _ (by decide)
      exact absurd this (by decide)
  have hne2 : line ≠ "node_modules/" := by
    rcases hl with h | h
    · rw [h]
      intro he
      have : '/' ∈ nm.data := by
        rw [he]
        decide
      exact hslash this
    · rw [h]
      intro he
      have hd := congrArg String.data he
      rw [String.data_append] at hd
      have hd2 : nm.data ++ ['/'] = ("node_modules" : String).data ++ ['/'] := by
        rw [hd]
        decide
      have : nm.data = ("node_modules" : String).data :=
        List.append_cancel_right hd2
      exact hnm (congrArg String.mk this)
  have hdw : nm.data.reverse.dropWhile (· = '/') = nm.data.reverse := by
    cases hrev : nm.data.reverse with
    | nil => rfl
    | cons a t =>
      have ha : a ∈ nm.data := by
        rw [← List.mem_reverse, hrev]
        exact List.mem_cons_self _ _
      have hane : a ≠ '/' := fun he => hslash (he ▸ ha)
      rw [List.dropWhile_cons]
      simp [hane]
  have hstrip : stripTrailingSlashes line = nm := by
    rcases hl with h | h
    · rw [h]
      unfold stripTrailingSlashes
      rw [hdw, List.reverse_reverse]
    · rw [h]
      unfold stripTrailingSlashes
      rw [String.data_append]
      have hr1 : (nm.data ++ ("/" : String).data).reverse = '/' :: nm.data.reverse := by
        simp
      rw [hr1, List.dropWhile_cons]
      simp [hdw]
  have hlead : strStartsWith nm "/" = false := by
    unfold strStartsWith
    cases hd : nm.data with
    | nil => rfl
    | cons a t =>
      have : a ∈ nm.data := by rw [hd]; exact List.mem_cons_self _ _
      have hane : a ≠ '/' := fun he => hslash (he ▸ this)
      show charsPrefixOf ['/'] (a :: t) = false
      simp [charsPrefixOf]
      intro he
      exact absurd he.symm hane
  unfold parseGitignoreLine
  rw [if_neg (by simp [hne1, hne2])]
  rw [hstrip]
  dsimp only
  rw [hlead]
  simp only [Bool.false_eq_true, if_false]
  rw [strReplace_no_occ nm "." _ (by decide)
      (charsContains_not_mem '.' [] nm.data hdot)]
  rw [strReplace_no_occ nm "**" _ (by decide)
      (charsContains_not_mem '*' ['*'] nm.data hstarn)]
  rw [strReplace_no_occ nm "*" _ (by decide)
      (charsContains_not_mem '*' [] nm.data hstarn)]
  rw [strReplace_no_occ nm "__DOUBLE_STAR__" _ (by decide) hnds]
  rw [strReplace_no_occ nm "?" _ (by decide)
      (charsContains_not_mem '?' [] nm.data hq)]
  rw [strReplace_no_occ nm "/" _ (by decide)
      (charsContains_not_mem '/' [] nm.data hslash)]

/-- C4: for an ignore-file line that is a literal directory name (plain
characters, with or without a trailing slash), any candidate whose bare
name equals the literal is reported as ignored at every depth below the
traversal root — for every item path and root path whatsoever — because
`shouldIgnore` tests each compiled pattern against the bare name as well
as the relative path, and a match on either counts. The side condition
excludes the internal `__DOUBLE_STAR__` marker string, which the
compiler would corrupt. -/
theorem literal_dirnames_ignored_at_every_depth
    (content nm line itemPath rootPath : String) (isDirectory : Bool)
    (hline : line ∈ (((strSplitOnChar '\n' content).map jsTrim).filter
        (fun l => l != "" && !(strStartsWith l "#"))))
    (hl : line = nm ∨ line = nm ++ "/")
    (hplain : ∀ c ∈ nm.data, PlainChar c)
    (hnds : charsContains nm.data ("__DOUBLE_STAR__".data) = false)
    (hbase : pathBasename itemPath = nm) :
    shouldIgnore itemPath (parseGitignore content) rootPath isDirectory = true := by
  have hmem : parseGitignoreLine line ∈ parseGitignore content := by
    unfold parseGitignore
    exact List.mem_map_of_mem _ hline
  have hname : rxTest (parseGitignoreLine line) nm = true := by
    by_cases hnm : nm = "node_modules"
    · subst hnm
      rcases hl with h | h <;> (subst h; decide)
    · rw [parseGitignoreLine_literal nm line hplain hnds hnm hl]
      exact compiled_literal_matches_name nm hplain
  unfold shouldIgnore
  rw [if_neg ?hlen]
  case hlen =>
    intro h0
    rw [List.length_eq_zero] at h0
    rw [h0] at hmem
    cases hmem
  dsimp only
  refine List.any_eq_true.mpr ⟨parseGitignoreLine line, hmem, ?_⟩
  rw [hbase, hname]
  simp

/-- C4 witness: for the ignore file `dist/\nbuild`, the directory
`root/a/b/dist` (bare name `dist`, two levels below the root) is
ignored. -/
theorem literal_dirnames_ignored_at_every_depth_witness :
    ("dist/" ∈ (((strSplitOnChar '\n' "dist/\nbuild").map jsTrim).filter
        (fun l => l != "" && !(strStartsWith l "#"))))
    ∧ pathBasename "root/a/b/dist" = "dist"
    ∧ shouldIgnore "root/a/b/dist" (parseGitignore "dist/\nbuild") "root" true
        = true :=
  ⟨by decide, by decide,
   literal_dirnames_ignored_at_every_depth "dist/\nbuild" "dist" "dist/"
     "root/a/b/dist" "root" true (by decide) (Or.inr (by decide)) (by decide)
     (by decide) (by decide)⟩

/-! ## The walker's depth discipline and listing completeness (claim C2) -/

/-- The Scenario E filesystem: one analyzable root file and one
subdirectory holding another analyzable file. -/
def fsScenarioE : FSList :=
  .cons (.file "a.js" 100 "" (some treeFunctionFoo))
    (.cons (.dir "sub" (.cons (.file "b.js" 50 "" (some treeFunctionFoo)) .nil)) .nil)

/-- Number of path separators in a string: the depth of a relative path
whose segments are separator-free. -/
def countSlash (s : String) : Nat :=
  s.data.count '/'

theorem countSlash_append (a b : String) :
    countSlash (a ++ b) = countSlash a + countSlash b := by
  unfold countSlash
  rw [String.data_append, List.count_append]

mutual
/-- No entry name anywhere in the tree contains a separator. -/
def namesSlashFree : FSEntry → Bool
  | .file n _ _ _ => !(n.data.contains '/')
  | .dir n entries => !(n.data.contains '/') && namesSlashFreeL entries
def namesSlashFreeL : FSList → Bool
  | .nil => true
  | .cons e tl => namesSlashFree e && namesSlashFreeL tl
end

/-- Contiguous-substring relation on strings. -/
def SubStr (sub s : String) : Prop :=
  ∃ l r : List Char, s.data = l ++ sub.data ++ r

theorem SubStr.appL (sub a b : String) (h : SubStr sub a) : SubStr sub (a ++ b) := by
  obtain ⟨l, r, hd⟩ := h
  exact ⟨l, r ++ b.data, by rw [String.data_append, hd]; simp⟩

theorem SubStr.appR (sub a b : String) (h : SubStr sub b) : SubStr sub (a ++ b) := by
  obtain ⟨l, r, hd⟩ := h
  exact ⟨a.data ++ l, r, by rw [String.data_append, hd]; simp⟩

theorem SubStr.here (sub a b : String) : SubStr sub (a ++ sub ++ b) :=
  ⟨a.data, b.data, by simp [String.data_append]⟩

mutual
/-- The entries the walker lists (spec: neither the ignore file itself,
nor hidden, nor matched by the ignore rules in force), at every depth,
with the per-directory rule accumulation the walker performs. This is a
derived description of the walker's filters, independent of `maxDepth`
and of every analysis flag. -/
def survivorsE (e : FSEntry) (allPats : List String)
    (dirPath rootPath : String) : List String :=
  if e.name == ".gitignore" then []
  else if strStartsWith e.name "." then []
  else if shouldIgnore (dirPath ++ "/" ++ e.name) allPats rootPath e.isDir then []
  else
    e.name ::
      (match e with
       | .file _ _ _ _ => []
       | .dir _ entries =>
         survivorsL entries (dirIgnorePatterns entries allPats)
           (dirPath ++ "/" ++ e.name) rootPath)
def survivorsL (items : FSList) (allPats : List String)
    (dirPath rootPath : String) : List String :=
  match items with
  | .nil => []
  | .cons e rest =>
    survivorsE e allPats dirPath rootPath ++ survivorsL rest allPats dirPath rootPath
end

/-- String append is associative. -/
theorem strAppend_assoc (a b c : String) : a ++ b ++ c = a ++ (b ++ c) :=
  congrArg String.mk (by simp [String.data_append])

/-- Joining path segments is associative. -/
theorem strJoin_assoc (dp n rel : String) :
    (dp ++ "/" ++ n) ++ "/" ++ rel = dp ++ "/" ++ (n ++ "/" ++ rel) :=
  congrArg String.mk (by simp [String.data_append])

mutual
/-- Depth discipline, per entry: any analysis result stored while
walking entry `e` at depth `d` lies at a relative path whose separator
count, offset by `d`, stays within `maxDepth` — files are analyzed only
when their depth satisfies the inclusive `currentDepth ≤ maxDepth` test
of the walker. -/
theorem walkEntry_depth : ∀ (e : FSEntry) (isLast : Bool)
    (dirPath rootPath : String) (pats : List String)
    (fps : Option (List String)) (indent : String) (analyze inc : Bool)
    (st : String) (d maxD : Nat) (loaded : List String)
    (p : String) (tbl : FileSymbolTable),
    (p, tbl) ∈ (walkEntry e isLast dirPath rootPath pats fps indent analyze inc
      st d maxD loaded).2 →
    namesSlashFree e = true →
    ∃ rel, p = dirPath ++ "/" ++ rel ∧ countSlash rel + d ≤ maxD
  | .file n sz ct pr, isLast, dirPath, rootPath, pats, fps, indent, analyze,
      inc, st, d, maxD, loaded, p, tbl => by
    intro hmem hsf
    have hcnt : countSlash n = 0 := by
      simp only [namesSlashFree, Bool.not_eq_true'] at hsf
      exact List.count_eq_zero.mpr (by simpa using hsf)
    unfold walkEntry at hmem
    dsimp only [FSEntry.name, FSEntry.isDir] at hmem
    repeat' split at hmem
    all_goals try (simp only [List.mem_singleton] at hmem)
    all_goals first
      | (rw [Prod.mk.injEq] at hmem
         refine ⟨n, hmem.1, ?_⟩
         simp only [Bool.and_eq_true, decide_eq_true_eq] at *
         omega)
      | cases hmem
  | .dir n entries, isLast, dirPath, rootPath, pats, fps, indent, analyze,
      inc, st, d, maxD, loaded, p, tbl => by
    intro hmem hsf
    have hsfl : namesSlashFreeL entries = true := by
      simp only [namesSlashFree, Bool.and_eq_true] at hsf
      exact hsf.2
    have hcnt : countSlash n = 0 := by
      simp only [namesSlashFree, Bool.and_eq_true, Bool.not_eq_true'] at hsf
      exact List.count_eq_zero.mpr (by simpa using hsf.1)
    unfold walkEntry at hmem
    dsimp only [FSEntry.name, FSEntry.isDir] at hmem
    repeat' split at hmem
    all_goals try (cases hmem)
    all_goals
      (obtain ⟨rel', hp, hle⟩ := walkList_depth entries _ _ _ _ _ _ _ _ _ _ _
        p tbl hmem hsfl
       refine ⟨n ++ "/" ++ rel', ?_, ?_⟩
       · rw [hp]
         exact strJoin_assoc dirPath n rel'
       · rw [countSlash_append, countSlash_append, hcnt]
         have hone : countSlash "/" = 1 := rfl
         omega)
theorem walkList_depth : ∀ (items : FSList) (pats : List String)
    (dirPath rootPath : String) (fps : Option (List String)) (indent : String)
    (analyze inc : Bool) (st : String) (d maxD : Nat) (loaded : List String)
    (p : String) (tbl : FileSymbolTable),
    (p, tbl) ∈ (walkList items pats dirPath rootPath fps indent analyze inc
      st d maxD loaded).2 →
    namesSlashFreeL items = true →
    ∃ rel, p = dirPath ++ "/" ++ rel ∧ countSlash rel + d ≤ maxD
  | .nil, pats, dirPath, rootPath, fps, indent, analyze, inc, st, d, maxD,
      loaded, p, tbl => by
    intro hmem _
    cases hmem
  | .cons e rest, pats, dirPath, rootPath, fps, indent, analyze, inc, st, d,
      maxD, loaded, p, tbl => by
    intro hmem hsf
    simp only [namesSlashFreeL, Bool.and_eq_true] at hsf
    unfold walkList at hmem
    rcases List.mem_append.mp hmem with hl | hr
    · exact walkEntry_depth e _ dirPath rootPath pats fps indent analyze inc
        st d maxD loaded p tbl hl hsf.1
    · exact walkList_depth rest pats dirPath rootPath fps indent analyze inc
        st d maxD loaded p tbl hr hsf.2
end

/-- The walker's entry line for `nm` contains the decorated fragment
`── nm`, whichever branch prefix is used and whatever follows the name. -/
theorem SubStr_pfx_name (indent nm tail : String) (isLast : Bool) :
    SubStr ("── " ++ nm)
      (indent ++ (if isLast then "└── " else "├── ") ++ nm ++ tail) := by
  cases isLast with
  | false =>
    refine ⟨indent.data ++ ['├'], tail.data, ?_⟩
    have h1 : ("├── " : String).data = ['├'] ++ ("── " : String).data := rfl
    simp [String.data_append, h1]
  | true =>
    refine ⟨indent.data ++ ['└'], tail.data, ?_⟩
    have h1 : ("└── " : String).data = ['└'] ++ ("── " : String).data := rfl
    simp [String.data_append, h1]

set_option maxHeartbeats 1000000 in
/-- Listing completeness for a file entry: a surviving file name appears,
decorated with its tree-branch fragment, in the rendered text, for every
`maxDepth` and every analysis flag. -/
theorem walkEntry_lists_file (n : String) (sz : Nat) (ct : String)
    (pr : Option Node) (isLast : Bool) (dirPath rootPath : String)
    (pats : List String) (fps : Option (List String)) (indent : String)
    (analyze inc : Bool) (st : String) (d maxD : Nat) (loaded : List String)
    (nm : String) :
    nm ∈ survivorsE (.file n sz ct pr) pats dirPath rootPath →
    SubStr ("── " ++ nm)
      (walkEntry (.file n sz ct pr) isLast dirPath rootPath pats fps indent
        analyze inc st d maxD loaded).1 := by
  intro hnm
  unfold survivorsE at hnm
  dsimp only [FSEntry.name, FSEntry.isDir] at hnm
  unfold walkEntry
  dsimp only [FSEntry.name, FSEntry.isDir]
  by_cases h1 : (n == ".gitignore") = true
  · rw [if_pos h1] at hnm
    cases hnm
  · rw [if_neg h1] at hnm
    by_cases h2 : strStartsWith n "." = true
    · rw [if_pos h2] at hnm
      cases hnm
    · rw [if_neg h2] at hnm
      by_cases h3 : shouldIgnore (dirPath ++ "/" ++ n) pats rootPath false = true
      · rw [if_pos h3] at hnm
        cases hnm
      · rw [if_neg h3] at hnm
        rw [if_neg h1, if_neg h2, if_neg h3]
        have hnmn : nm = n := by simpa using hnm
        subst hnmn
        by_cases h4 : (analyze && decide (d ≤ maxD)
            && isSupportedFile (dirPath ++ "/" ++ nm) fps) = true
        · rw [if_pos h4]
          cases hres : extractCodeSymbols loaded (dirPath ++ "/" ++ nm) pr with
          | some symbols =>
            exact SubStr.appL _ _ _ (SubStr.appL _ _ _ (SubStr.appL _ _ _
              (SubStr.appL _ _ _ (SubStr_pfx_name indent nm " (" isLast))))
          | none =>
            exact SubStr.appL _ _ _ (SubStr.appL _ _ _
              (SubStr_pfx_name indent nm " (" isLast))
        · rw [if_neg h4]
          exact SubStr.appL _ _ _ (SubStr.appL _ _ _
            (SubStr_pfx_name indent nm " (" isLast))

set_option maxHeartbeats 1000000 in
mutual
/-- Listing completeness, per entry: every surviving entry name (not the
ignore file, not hidden, not ignored — at any depth below) appears,
decorated with its tree-branch fragment, in the rendered text, for every
`maxDepth` and every analysis flag. -/
theorem walkEntry_lists : ∀ (e : FSEntry) (isLast : Bool)
    (dirPath rootPath : String) (pats : List String)
    (fps : Option (List String)) (indent : String) (analyze inc : Bool)
    (st : String) (d maxD : Nat) (loaded : List String) (nm : String),
    nm ∈ survivorsE e pats dirPath rootPath →
    SubStr ("── " ++ nm)
      (walkEntry e isLast dirPath rootPath pats fps indent analyze inc st d
        maxD loaded).1
  | .file n sz ct pr, isLast, dirPath, rootPath, pats, fps, indent, analyze,
      inc, st, d, maxD, loaded, nm => by
    intro hnm
    exact walkEntry_lists_file n sz ct pr isLast dirPath rootPath pats fps
      indent analyze inc st d maxD loaded nm hnm
  | .dir n entries, isLast, dirPath, rootPath, pats, fps, indent, analyze,
      inc, st, d, maxD, loaded, nm => by
    intro hnm
    unfold survivorsE at hnm
    dsimp only [FSEntry.name, FSEntry.isDir] at hnm
    unfold walkEntry
    dsimp only [FSEntry.name, FSEntry.isDir]
    by_cases h1 : (n == ".gitignore") = true
    · rw [if_pos h1] at hnm
      cases hnm
    · rw [if_neg h1] at hnm
      by_cases h2 : strStartsWith n "." = true
      · rw [if_pos h2] at hnm
        cases hnm
      · rw [if_neg h2] at hnm
        by_cases h3 : shouldIgnore (dirPath ++ "/" ++ n) pats rootPath true = true
        · rw [if_pos h3] at hnm
          cases hnm
        · rw [if_neg h3] at hnm
          rw [if_neg h1, if_neg h2, if_neg h3]
          rcases List.mem_cons.mp hnm with hn | hrec
          · subst hn
            exact SubStr.appL _ _ _ (SubStr_pfx_name indent nm "/\n" isLast)
          · exact SubStr.appR _ _ _
              (walkList_lists entries _ _ _ _ _ _ _ _ _ _ _ nm hrec)
theorem walkList_lists : ∀ (items : FSList) (pats : List String)
    (dirPath rootPath : String) (fps : Option (List String)) (indent : String)
    (analyze inc : Bool) (st : String) (d maxD : Nat) (loaded : List String)
    (nm : String),
    nm ∈ survivorsL items pats dirPath rootPath →
    SubStr ("── " ++ nm)
      (walkList items pats dirPath rootPath fps indent analyze inc st d maxD
        loaded).1
  | .nil, pats, dirPath, rootPath, fps, indent, analyze, inc, st, d, maxD,
      loaded, nm => by
    intro hnm
    cases hnm
  | .cons e rest, pats, dirPath, rootPath, fps, indent, analyze, inc, st, d,
      maxD, loaded, nm => by
    intro hnm
    unfold survivorsL at hnm
    unfold walkList
    rcases List.mem_append.mp hnm with hl | hr
    · exact SubStr.appL _ _ _
        (walkEntry_lists e _ dirPath rootPath pats fps indent analyze inc st d
          maxD loaded nm hl)
    · exact SubStr.appR _ _ _
        (walkList_lists rest pats dirPath rootPath fps indent analyze inc st d
          maxD loaded nm hr)
end

/-- C2: for every walk, symbols are stored only for files whose depth
obeys the inclusive `currentDepth ≤ maxDepth` test (part one: every
stored path sits at most `maxDepth` separators below the root), while
the rendered directory-tree text includes every non-ignored, non-hidden
entry at every depth regardless of `maxDepth` (part two: each survivor's
decorated name occurs in the text for EVERY `maxDepth`, the child
analysis flag being the strictly tighter `currentDepth < maxDepth`);
part three checks Scenario E concretely: with `maxDepth = 0` only the
root-level file is analyzed, and the subdirectory's file is still listed
with no symbol summary line after it. -/
theorem analysisDepth_bounded_listing_unbounded :
    (∀ (entries : FSList) (dirPath rootPath : String) (pats : List String)
        (fps : Option (List String)) (indent st : String) (analyze inc : Bool)
        (maxD : Nat) (loaded : List String) (p : String) (tbl : FileSymbolTable),
      namesSlashFreeL entries = true →
      (p, tbl) ∈ (getDirectoryTree entries dirPath rootPath pats fps indent
        analyze inc st 0 maxD loaded).2 →
      ∃ rel, p = dirPath ++ "/" ++ rel ∧ countSlash rel ≤ maxD)
    ∧ (∀ (entries : FSList) (dirPath rootPath : String) (pats : List String)
        (fps : Option (List String)) (indent st : String) (analyze inc : Bool)
        (maxD : Nat) (loaded : List String) (nm : String),
      nm ∈ survivorsL entries (dirIgnorePatterns entries pats) dirPath rootPath →
      SubStr ("── " ++ nm) (getDirectoryTree entries dirPath rootPath pats fps
        indent analyze inc st 0 maxD loaded).1)
    ∧ getDirectoryTree fsScenarioE "root" "root" [] none "" true false "all" 0 0
        ["tree-sitter-javascript.wasm"]
      = ("├── a.js (1 KB)\n│   └── [Analyzed: 1 functions, 0 variables, 0 classes]\n└── sub/\n    └── b.js (1 KB)\n",
         [("root/a.js", extractJsSymbols treeFunctionFoo)]) := by
  refine ⟨?_, ?_, by decide⟩
  · intro entries dirPath rootPath pats fps indent st analyze inc maxD loaded
      p tbl hsf hmem
    unfold getDirectoryTree at hmem
    obtain ⟨rel, hp, hle⟩ := walkList_depth entries _ dirPath rootPath fps
      indent analyze inc st 0 maxD loaded p tbl hmem hsf
    exact ⟨rel, hp, by omega⟩
  · intro entries dirPath rootPath pats fps indent st analyze inc maxD loaded
      nm hnm
    unfold getDirectoryTree
    exact walkList_lists entries _ dirPath rootPath fps indent analyze inc st
      0 maxD loaded nm hnm

/-- C2 witness: in Scenario E with `maxDepth = 0`, the stored analysis
result for `root/a.js` is at depth 0, and the subdirectory's file
`b.js` — a survivor two levels down — appears in the rendered text. -/
theorem analysisDepth_bounded_listing_unbounded_witness :
    namesSlashFreeL fsScenarioE = true
    ∧ ("root/a.js", extractJsSymbols treeFunctionFoo)
        ∈ (getDirectoryTree fsScenarioE "root" "root" [] none "" true false
            "all" 0 0 ["tree-sitter-javascript.wasm"]).2
    ∧ (∃ rel, "root/a.js" = "root" ++ "/" ++ rel ∧ countSlash rel ≤ 0)
    ∧ "b.js" ∈ survivorsL fsScenarioE (dirIgnorePatterns fsScenarioE []) "root" "root"
    ∧ SubStr ("── " ++ "b.js")
        (getDirectoryTree fsScenarioE "root" "root" [] none "" true false
          "all" 0 0 ["tree-sitter-javascript.wasm"]).1 :=
  ⟨by decide, by decide,
   analysisDepth_bounded_listing_unbounded.1 fsScenarioE "root" "root" [] none
     "" "all" true false 0 ["tree-sitter-javascript.wasm"] "root/a.js"
     (extractJsSymbols treeFunctionFoo) (by decide) (by decide),
   by decide,
   analysisDepth_bounded_listing_unbounded.2.1 fsScenarioE "root" "root" []
     none "" "all" true false 0 ["tree-sitter-javascript.wasm"] "b.js"
     (by decide)⟩
